import Mathlib

/-!
# BigArithmetic.BigUint (src/long.cpp)

A shallow embedding of the class `BigUint` of `src/long.cpp` and theorems about
its constructor, its comparison operators, `operator+`, `operator-` and the
stream output operator.

## Memory model

A `BigUint` object holds `storage`, a vector of 1000 cells, and `data`, a span
(pointer and size). The implicit copy constructor used by `BigUint result{bigger}`
copies the vector and copies the span as it is, so the `data` of the copy keeps
pointing into the storage of `bigger`; the fresh vector of the copy is never
accessed. The embedding therefore describes an object by the arena its `data`
points into, split at the window:

* `before`: the arena cells in front of `data.begin()`, nearest cell first;
* `data`:   the cells of the window, most significant limb first;
* `after`:  the arena cells from `data.end()` to the end of the arena;
* `owns`:   whether that arena is the `storage` member of the object itself
            (false for a copy).

Accesses are described at the level of memory cells: `front()` of a span whose
size is zero is the cell at its begin pointer, `back()` of such a span is the
cell in front of it. An access that leaves the arena is the fault
`Fault.outOfArena`.

The two operands of a binary operator are taken to be distinct objects whose
windows lie in different arenas.

A span that is consumed from its back (`span_res`, `span_small`, the span `a`
of `CarryOverflow`) is represented by the list of its cells in reverse order:
`back()` is the head of that list and `ShrinkSpan` takes its tail.

Limbs are `uint64_t`; additions, subtractions and multiplications are taken
modulo `2^64`. `char` is the signed 8-bit type of the x86-64 ABI. A
`std::string_view` is represented by the list of its characters, a `Char` below
256 standing for the byte of that value.

The functions return `Except Fault`: a call that throws, aborts or leaves the
arena yields `Except.error`.
-/

namespace BigArithmetic

/-- Ways in which a call ends without returning a value. -/
inductive Fault where
  /-- `Assert` threw `std::runtime_error{"Assertion failed"}`. -/
  | assertion
  /-- `ReallocateStorage` called `std::abort`. -/
  | aborted
  /-- A cell outside the arena was accessed. -/
  | outOfArena
  /-- The `nullptr` returned by `FindNonZeroToLeft` was dereferenced. -/
  | nullDeref
  deriving DecidableEq, Repr

deriving instance DecidableEq for Except

/-- The constant `BIGDIGIT_BASE = 1e1`. -/
def BIGDIGIT_BASE : Nat := 10

/-- The constant `DECIMAL_BASE = 10`. -/
def DECIMAL_BASE : Nat := 10

/-- Number of values of `uint64_t`, `2^64`. -/
def U64 : Nat := 18446744073709551616

/-- Addition of `uint64_t`. -/
def wadd (x y : Nat) : Nat := (x + y) % U64

/-- Subtraction of `uint64_t`. -/
def wsub (x y : Nat) : Nat := (x + (U64 - y % U64)) % U64

/-- Multiplication of `uint64_t`. -/
def wmul (x y : Nat) : Nat := (x * y) % U64

/-- Conversion of a `bool` to `uint64_t`. -/
def ofBool (b : Bool) : Nat := if b then 1 else 0

/-- An object of class `BigUint`, see the memory model above. -/
structure BigUint where
  before : List Nat
  data : List Nat
  after : List Nat
  owns : Bool
  deriving DecidableEq, Repr

/-- The default member initialisers: `storage` is 1000 zero cells and `data` is
the one-cell span at `storage.begin() + 500`. -/
def BigUint.fresh : BigUint :=
  { before := List.replicate 500 0, data := [0], after := List.replicate 499 0, owns := true }

/-- The implicit copy constructor, `BigUint result{bigger}`: the span is copied
as it is and keeps pointing into the arena of the source. -/
def BigUint.copy (x : BigUint) : BigUint := { x with owns := false }

/-- `Size()`. -/
def BigUint.Size (x : BigUint) : Nat := x.data.length

/-! ## Growth of the window -/

/-- `ReallocateStorage`: `std::abort()`. -/
def ReallocateStorage : Except Fault BigUint := .error .aborted

/-- `ExtendNumberRight`. When `storage.end() != data.end()` the span takes in
the next cell, whatever it holds. For a copy the two pointers belong to
different vectors and always differ. -/
def ExtendNumberRight (x : BigUint) : Except Fault BigUint :=
  match x.after with
  | c :: rest => .ok { x with data := x.data ++ [c], after := rest }
  | [] => if x.owns then ReallocateStorage else .error .outOfArena

/-- `ExtendNumberLeft`. When `storage.begin() != data.begin()` the span takes in
the cell in front of it, whatever it holds. For a copy the two pointers belong
to different vectors and always differ. -/
def ExtendNumberLeft (x : BigUint) : Except Fault BigUint :=
  match x.before with
  | c :: rest => .ok { x with data := c :: x.data, before := rest }
  | [] => if x.owns then ReallocateStorage else .error .outOfArena

/-! ## The constructor from a string -/

/-- `SkipZeroes`. -/
def SkipZeroes : List Char → List Char
  | [] => []
  | c :: n => if c = '0' then SkipZeroes n else c :: n

/-- The value of a `char` holding the byte of `c`. -/
def charValue (c : Char) : Int :=
  let b : Int := ((c.toNat % 256 : Nat) : Int)
  if b < 128 then b else b - 256

/-- Conversion of an `int` to `char`. -/
def toChar (i : Int) : Int := (i + 128) % 256 - 128

/-- Conversion of a `char` to `uint64_t`. -/
def toU64 (i : Int) : Nat := (i % (U64 : Int)).toNat

/-- `ExtractDigit`: both assertions, then the first character minus `'0'` and
the rest of the view. -/
def ExtractDigit : List Char → Except Fault (Int × List Char)
  | [] => .error .assertion
  | c :: v =>
      if c = '0' then .error .assertion
      else .ok (toChar (charValue c - charValue '0'), v)

/-- The cell `data.back()`. -/
def BigUint.back (x : BigUint) : Except Fault Nat :=
  match x.data.reverse ++ x.before with
  | c :: _ => .ok c
  | [] => .error .outOfArena

/-- Assignment to the cell `data.back()`. -/
def BigUint.setBack (x : BigUint) (v : Nat) : Except Fault BigUint :=
  match x.data.reverse with
  | _ :: r => .ok { x with data := (v :: r).reverse }
  | [] =>
      match x.before with
      | _ :: b => .ok { x with before := v :: b }
      | [] => .error .outOfArena

/-- `CreatesOverflow`: `data.back() * DECIMAL_BASE + digit > BIGDIGIT_BASE`. -/
def CreatesOverflow (x : BigUint) (digit : Int) : Except Fault Bool :=
  match x.back with
  | .ok b => .ok (decide (wadd (wmul b DECIMAL_BASE) (toU64 digit) > BIGDIGIT_BASE))
  | .error e => .error e

/-- `PushBackDigit`: `data.back() *= 10; data.back() += digit`. -/
def PushBackDigit (x : BigUint) (digit : Int) : Except Fault BigUint :=
  match x.back with
  | .ok b => x.setBack (wadd (wmul b 10) (toU64 digit))
  | .error e => .error e

/-- The loop of the constructor `BigUint(std::string_view n)`. -/
def ctorLoop : List Char → BigUint → Except Fault BigUint
  | [], x => .ok x
  | c :: n, x =>
      match ExtractDigit (c :: n) with
      | .error e => .error e
      | .ok (digit, _) =>
          match CreatesOverflow x digit with
          | .error e => .error e
          | .ok ov =>
              match (if ov then ExtendNumberRight x else .ok x) with
              | .error e => .error e
              | .ok x1 =>
                  match PushBackDigit x1 digit with
                  | .error e => .error e
                  | .ok x2 => ctorLoop n x2

/-- The constructor `BigUint(std::string_view n)`. -/
def BigUint.ofString (n : String) : Except Fault BigUint :=
  ctorLoop (SkipZeroes n.data) BigUint.fresh

/-! ## Output -/

/-- The result of `out << iter.front()` for a limb: the call resolves to
`std::ostream::operator<<(unsigned long)`, which writes the decimal numeral.
(The friend `operator<<(std::ostream &, BigDigit)` of the class is found by
argument-dependent lookup only, and neither argument type has `BigUint` as an
associated class.) -/
def printLimb (d : Nat) : List Char := Nat.toDigits 10 d

/-- The loop of `operator<<(std::ostream &, const BigUint &)`. -/
def printLimbs : List Nat → List Char
  | [] => []
  | d :: iter => printLimb d ++ printLimbs iter

/-- The characters written by `operator<<(std::ostream &, const BigUint &)`. -/
def operatorOut (n : BigUint) : String := String.mk (printLimbs n.data)

/-! ## Comparison -/

/-- A `ComparisonProxy`: `cells` are the arena cells from `rest.begin()` to the
end of the arena and `size` is `rest.size()`. -/
structure ComparisonProxy where
  cells : List Nat
  size : Nat

/-- `ComparisonProxy{data}`. -/
def BigUint.proxy (x : BigUint) : ComparisonProxy :=
  { cells := x.data ++ x.after, size := x.data.length }

/-- The loop and the return statement of `ComparisonProxy::operator==` after
the size test; the first argument is `a.size()`. -/
def ComparisonProxy.eqLoop : Nat → List Nat → List Nat → Except Fault Bool
  | 0, _, _ => .ok true
  | n + 1, a, b =>
      match a, b with
      | x :: a1, y :: b1 => if x = y then eqLoop n a1 b1 else .ok false
      | _, _ => .error .outOfArena

/-- `ComparisonProxy::operator==`. -/
def ComparisonProxy.operatorEq (p other : ComparisonProxy) : Except Fault Bool :=
  if p.size ≠ other.size then .ok false
  else ComparisonProxy.eqLoop p.size p.cells other.cells

/-- The loop and the return statement of `ComparisonProxy::operator<`; the
first argument is `a.size()`. When the loop has consumed the whole span the
return statement is `a.front() < b.front()`, which reads the cells at the two
begin pointers; when it stopped at a differing limb the value is `false`. -/
def ComparisonProxy.ltLoop : Nat → List Nat → List Nat → Except Fault Bool
  | 0, a, b =>
      match a, b with
      | x :: _, y :: _ => .ok (decide (x < y))
      | _, _ => .error .outOfArena
  | n + 1, a, b =>
      match a, b with
      | x :: a1, y :: b1 => if x = y then ltLoop n a1 b1 else .ok false
      | _, _ => .error .outOfArena

/-- `ComparisonProxy::operator<`. -/
def ComparisonProxy.operatorLess (p other : ComparisonProxy) : Except Fault Bool :=
  ComparisonProxy.ltLoop p.size p.cells other.cells

/-- `BigUint::operator<`. -/
def BigUint.operatorLess (x other : BigUint) : Except Fault Bool :=
  if x.Size = other.Size then x.proxy.operatorLess other.proxy
  else .ok (decide (x.Size < other.Size))

/-- `BigUint::operator==`. -/
def BigUint.operatorEq (x other : BigUint) : Except Fault Bool :=
  if x.Size ≠ other.Size then .ok false
  else x.proxy.operatorEq other.proxy

/-- The three results of `Compare`. -/
inductive Ordering3 where
  | Less
  | Equal
  | Greater
  deriving DecidableEq, Repr

/-- `Compare(a, b)` as derived from the operators: `Less` when `a < b`, `Equal`
when `a == b`, `Greater` otherwise. -/
def Compare (a b : BigUint) : Except Fault Ordering3 :=
  match a.operatorLess b with
  | .error e => .error e
  | .ok true => .ok .Less
  | .ok false =>
      match a.operatorEq b with
      | .error e => .error e
      | .ok true => .ok .Equal
      | .ok false => .ok .Greater

/-- A reference to one of the two operands of a binary operator. -/
inductive Ref where
  | self
  | other
  deriving DecidableEq, Repr

/-- The object a reference denotes. -/
def Ref.get (r : Ref) (x other : BigUint) : BigUint :=
  match r with
  | .self => x
  | .other => other

/-- `OrderedRefs`: the pair `(smaller, bigger)` of references. -/
def OrderedRefs (x other : BigUint) : Except Fault (Ref × Ref) :=
  match x.operatorLess other with
  | .error e => .error e
  | .ok true => .ok (.self, .other)
  | .ok false => .ok (.other, .self)

/-! ## Addition -/

/-- The `while (span_small.size())` loop of `operator+`. Arguments: `span_small`
and `span_res` in reverse order, the cells of the window that `ShrinkSpan` has
already dropped from `span_res` (in order) and `overflow`. The loop body reads
`span_res.back()`; the case where `span_res` is used up before `span_small`
leaves the window and is reported as a fault. -/
def plusLoop : List Nat → List Nat → List Nat → Bool → Except Fault (List Nat × List Nat × Bool)
  | [], span_res, done, overflow => .ok (span_res, done, overflow)
  | s :: span_small, r :: span_res, done, overflow =>
      let v := wadd r (wadd s (ofBool overflow))
      if v ≥ BIGDIGIT_BASE then
        plusLoop span_small span_res (wsub v BIGDIGIT_BASE :: done) true
      else
        plusLoop span_small span_res (v :: done) false
  | _ :: _, [], _, _ => .error .outOfArena

/-- Assignment to the cell `data.front()`. -/
def BigUint.setFront (x : BigUint) (v : Nat) : Except Fault BigUint :=
  match x.data with
  | _ :: d => .ok { x with data := v :: d }
  | [] =>
      match x.after with
      | _ :: a => .ok { x with after := v :: a }
      | [] => .error .outOfArena

/-- The body of `operator+` after the structured binding
`const auto &[smaller, bigger] = OrderedRefs(other)`. The value returned is
`result`, whose `data` points into the arena of `bigger`. -/
def plusBody (smaller bigger : BigUint) : Except Fault BigUint :=
  let result := bigger.copy
  match plusLoop smaller.data.reverse result.data.reverse [] false with
  | .error e => .error e
  | .ok (span_res, done, overflow) =>
      if overflow then
        match span_res with
        | r :: rest => .ok { result with data := (wadd r 1 :: rest).reverse ++ done }
        | [] =>
            match ExtendNumberLeft { result with data := done } with
            | .error e => .error e
            | .ok extended => extended.setFront 1
      else .ok { result with data := span_res.reverse ++ done }

/-- `BigUint::operator+`. -/
def BigUint.operatorPlus (x other : BigUint) : Except Fault BigUint :=
  match OrderedRefs x other with
  | .error e => .error e
  | .ok (smaller, bigger) => plusBody (smaller.get x other) (bigger.get x other)

/-! ## Subtraction -/

/-- A span over a window that is consumed from its back, together with the
rest of the window and of the arena in front of it. -/
structure Cursor where
  /-- The cells still in the span, in reverse order: the head is `back()`. -/
  view : List Nat
  /-- The cells of the window that `ShrinkSpan` has dropped, in order. -/
  done : List Nat
  /-- The arena cells in front of the window, nearest first. -/
  before : List Nat
  deriving DecidableEq, Repr

/-- The span over the whole window of an object. -/
def BigUint.cursor (x : BigUint) : Cursor :=
  { view := x.data.reverse, done := [], before := x.before }

/-- The window under a cursor, most significant limb first. -/
def Cursor.window (c : Cursor) : List Nat := c.view.reverse ++ c.done

/-- `ShrinkSpan`: `span.first(span.size() - 1)`. -/
def Cursor.ShrinkSpan (c : Cursor) : Except Fault Cursor :=
  match c.view with
  | x :: v => .ok { c with view := v, done := x :: c.done }
  | [] => .error .outOfArena

/-- `FindNonZeroToLeft(iterate)`. The argument is the list of window cells to
the left of `iterate`, nearest first; the result is the number of cells between
`iterate` and the cell found, and `none` stands for `nullptr`. -/
def FindNonZeroToLeft : List Nat → Option Nat
  | [] => none
  | c :: cells => if c > 0 then some 0 else (FindNonZeroToLeft cells).map (· + 1)

/-- `result.LoanOne(&span_res.back())`: `*find -= 1`, then `BIGDIGIT_BASE` is
added to every cell from `find + 1` up to and including `&data.back()`. -/
def LoanOne (c : Cursor) : Except Fault Cursor :=
  match c.view with
  | [] => .error .outOfArena
  | cur :: left =>
      match FindNonZeroToLeft left with
      | none => .error .nullDeref
      | some k =>
          match left.drop k with
          | [] => .error .outOfArena
          | found :: more =>
              .ok { c with
                    view := wadd cur BIGDIGIT_BASE ::
                      ((left.take k).map (fun z => wadd z BIGDIGIT_BASE) ++ wsub found 1 :: more),
                    done := c.done.map (fun z => wadd z BIGDIGIT_BASE) }

/-- The loop of `CarryOverflow`. The list holds the arena cells from `a.back()`
leftwards to the start of the arena; `inc` is what the previous round added to
`a.back()` after `ShrinkSpan` (nothing on entry). -/
def carryLoop : Nat → List Nat → Except Fault (List Nat)
  | _, [] => .error .outOfArena
  | inc, c :: cells =>
      let c1 := wadd c inc
      if c1 > BIGDIGIT_BASE then
        match carryLoop 1 cells with
        | .error e => .error e
        | .ok cells1 => .ok (wsub c1 BIGDIGIT_BASE :: cells1)
      else .ok (c1 :: cells)

/-- `CarryOverflow` on the object whose window is under the cursor:
`a = data.subspan(0)` covers the whole window, whatever the span of the cursor
has been shrunk to. -/
def CarryOverflow (c : Cursor) : Except Fault Cursor :=
  match carryLoop 0 (c.done.reverse ++ c.view ++ c.before) with
  | .error e => .error e
  | .ok cells =>
      .ok { view := (cells.drop c.done.length).take c.view.length,
            done := (cells.take c.done.length).reverse,
            before := cells.drop (c.done.length + c.view.length) }

/-- The `while (span_small.size())` loop of `operator-`. The first argument
tells whether `bigger` is `*this`; the second is `span_small.size()`. The
unqualified call `CarryOverflow()` acts on `*this`, that is on the window of
`result` when `bigger` is `*this` (the two spans denote the same cells) and on
the window of `smaller` otherwise. -/
def minusLoop (thisIsBigger : Bool) : Nat → Cursor → Cursor → Except Fault (Cursor × Cursor)
  | 0, span_res, span_small => .ok (span_res, span_small)
  | n + 1, span_res, span_small =>
      match span_res.view, span_small.view with
      | r :: _, s :: _ =>
          match (if r < s then LoanOne span_res else .ok span_res) with
          | .error e => .error e
          | .ok loaned =>
              match loaned.view with
              | [] => .error .outOfArena
              | r1 :: left =>
                  let res1 : Cursor := { loaned with view := wsub r1 s :: left }
                  match (if thisIsBigger then CarryOverflow res1 else .ok res1),
                        (if thisIsBigger then .ok span_small else CarryOverflow span_small) with
                  | .ok res2, .ok small2 =>
                      match res2.ShrinkSpan, small2.ShrinkSpan with
                      | .ok res3, .ok small3 => minusLoop thisIsBigger n res3 small3
                      | .error e, _ => .error e
                      | _, .error e => .error e
                  | .error e, _ => .error e
                  | _, .error e => .error e
      | _, _ => .error .outOfArena

/-- The body of `operator-` after the structured binding
`const auto &[smaller, bigger] = OrderedRefs(other)`; the first argument tells
whether `bigger` is `*this`. The value returned is `result`, whose `data`
points into the arena of `bigger`. -/
def minusBody (thisIsBigger : Bool) (smaller bigger : BigUint) : Except Fault BigUint :=
  let result := bigger.copy
  match minusLoop thisIsBigger smaller.Size result.cursor smaller.cursor with
  | .error e => .error e
  | .ok (span_res, _) =>
      .ok { result with data := span_res.window, before := span_res.before }

/-- `BigUint::operator-`. -/
def BigUint.operatorMinus (x other : BigUint) : Except Fault BigUint :=
  match OrderedRefs x other with
  | .error e => .error e
  | .ok (smaller, bigger) =>
      minusBody (decide (bigger = Ref.self)) (smaller.get x other) (bigger.get x other)

/-! ## Derived notions used by the statements -/

/-- The number denoted by a window: the sum of `limb_i * 10^position`. -/
def value (limbs : List Nat) : Nat := limbs.foldl (fun acc d => acc * 10 + d) 0

/-- Invariant I2 for base 10: every limb of the window is below 10. -/
def LimbsInRange (x : BigUint) : Prop := ∀ d ∈ x.data, d < BIGDIGIT_BASE

/-- Invariant I1: the window holds at least one limb. -/
def WindowNonEmpty (x : BigUint) : Prop := x.data ≠ []

/-- Invariant I3: when the most significant limb is zero the window holds no
other limb. -/
def NoLeadingZero (x : BigUint) : Prop := ∀ d rest, x.data = d :: rest → d = 0 → rest = []

/-- The cells of the arena that `data` points into, from the start of the
arena. -/
def BigUint.arena (x : BigUint) : List Nat := x.before.reverse ++ x.data ++ x.after

/-- The limbs that the operand `bigger` holds once `operator+` or `operator-`
has returned `result`: the span of `bigger` is what it was before the call, and
its cells are cells of the arena that `result.data` points into and through
which the call has written. -/
def windowAfter (bigger result : BigUint) : List Nat :=
  (result.arena.drop bigger.before.length).take bigger.data.length

/-- A character in the range `'1'..'9'`. -/
def isNonzeroDigit (c : Char) : Bool := decide (49 ≤ c.toNat) && decide (c.toNat ≤ 57)

/-- A character in the range `'0'..'9'`. -/
def isDecimalDigit (c : Char) : Bool := decide (48 ≤ c.toNat) && decide (c.toNat ≤ 57)

/-- A decimal string with no leading zeros, or exactly the string of the one
character zero. -/
def isCanonicalDecimal (s : String) : Bool :=
  match s.data with
  | [] => false
  | [c] => isDecimalDigit c
  | c :: cs => isNonzeroDigit c && cs.all isDecimalDigit

/-- An object laid out as the constructor leaves it: the window starts at cell
500 of an arena of 1000 cells that are zero outside the window. -/
def BigUint.withLimbs (limbs : List Nat) : BigUint :=
  { before := List.replicate 500 0, data := limbs,
    after := List.replicate (500 - limbs.length) 0, owns := true }

/-- The text printed for `BigUint(s) + BigUint(t)`. -/
def sumOfStrings (s t : String) : Except Fault String :=
  match BigUint.ofString s, BigUint.ofString t with
  | .ok a, .ok b => (a.operatorPlus b).map operatorOut
  | .error e, _ => .error e
  | _, .error e => .error e

/-- The text printed for `BigUint(s) - BigUint(t)`. -/
def differenceOfStrings (s t : String) : Except Fault String :=
  match BigUint.ofString s, BigUint.ofString t with
  | .ok a, .ok b => (a.operatorMinus b).map operatorOut
  | .error e, _ => .error e
  | _, .error e => .error e

/-- The window of `BigUint(s) - BigUint(t)`. -/
def differenceLimbs (s t : String) : Except Fault (List Nat) :=
  match BigUint.ofString s, BigUint.ofString t with
  | .ok a, .ok b => (a.operatorMinus b).map BigUint.data
  | .error e, _ => .error e
  | _, .error e => .error e

/-! ## Lemmas on machine arithmetic and characters -/

theorem charValue_zero : charValue '0' = 48 := by decide

/-- The digit that `ExtractDigit` returns for a character in `'1'..'9'`, as a
`uint64_t`. -/
theorem digit_of_nonzeroDigit (c : Char) (h : isNonzeroDigit c = true) :
    toU64 (toChar (charValue c - charValue '0')) = c.toNat - 48 := by
  simp only [isNonzeroDigit, Bool.and_eq_true, decide_eq_true_eq] at h
  rw [charValue_zero]
  unfold toU64 toChar charValue U64
  simp only
  omega

theorem ne_zero_of_nonzeroDigit (c : Char) (h : isNonzeroDigit c = true) : c ≠ '0' := by
  intro hc
  rw [hc] at h
  exact absurd h (by decide)

theorem printLimb_of_nonzeroDigit (c : Char) (h : isNonzeroDigit c = true) :
    printLimb (c.toNat - 48) = [c] := by
  simp only [isNonzeroDigit, Bool.and_eq_true, decide_eq_true_eq] at h
  have hc : Char.ofNat c.toNat = c := Char.ofNat_toNat c
  generalize c.toNat = n at h hc
  obtain ⟨h1, h2⟩ := h
  interval_cases n <;> (rw [← hc]; rfl)


theorem back_of_data (x : BigUint) (pre : List Nat) (d : Nat) (h : x.data = pre ++ [d]) :
    x.back = .ok d := by
  simp [BigUint.back, h]

theorem setBack_of_data (x : BigUint) (pre : List Nat) (d v : Nat) (h : x.data = pre ++ [d]) :
    x.setBack v = .ok { x with data := pre ++ [v] } := by
  simp [BigUint.setBack, h]

/-- One round of the constructor loop on a character other than `'0'`, for a
window that is not empty and does not end at the end of the arena: the round
completes, the window stays non-empty and at most one cell of the arena is
taken in. -/
theorem ctorLoop_cons (c : Char) (n : List Char) (x : BigUint) (hc : c ≠ '0')
    (hd : x.data ≠ []) (ha : x.after ≠ []) :
    ∃ x2, ctorLoop (c :: n) x = ctorLoop n x2 ∧ x2.data ≠ [] ∧
      x.after.length ≤ x2.after.length + 1 := by
  obtain ⟨pre, d, hpd⟩ : ∃ pre d, x.data = pre ++ [d] := by
    rcases List.eq_nil_or_concat x.data with h | ⟨pre, d, h⟩
    · exact absurd h hd
    · exact ⟨pre, d, by simpa using h⟩
  obtain ⟨a0, rest, har⟩ := List.exists_cons_of_ne_nil ha
  simp only [ctorLoop, ExtractDigit, hc, if_false, CreatesOverflow, back_of_data x pre d hpd]
  by_cases hov : wadd (wmul d DECIMAL_BASE) (toU64 (toChar (charValue c - charValue '0')))
      > BIGDIGIT_BASE
  · have hx1 : ({ x with data := x.data ++ [a0], after := rest } : BigUint).data
        = (pre ++ [d]) ++ [a0] := by simp [hpd]
    simp only [hov, decide_True, if_true, ExtendNumberRight, har, PushBackDigit,
      back_of_data _ _ _ hx1, setBack_of_data _ _ _ _ hx1]
    exact ⟨_, rfl, by simp, by simp [har]⟩
  · simp only [hov, decide_False, Bool.false_eq_true, if_false, PushBackDigit,
      back_of_data x pre d hpd, setBack_of_data _ _ _ _ hpd]
    exact ⟨_, rfl, by simp, by simp⟩

/-- The constructor loop throws when a `'0'` is among the characters and the
arena has a free cell for every character. -/
theorem ctorLoop_zero : ∀ (n : List Char) (x : BigUint), x.data ≠ [] →
    n.length ≤ x.after.length → '0' ∈ n → ctorLoop n x = .error .assertion
  | [], _, _, _, h => by simp at h
  | c :: n, x, hd, hlen, hmem => by
      by_cases hc : c = '0'
      · simp [ctorLoop, ExtractDigit, hc]
      · have ha : x.after ≠ [] := by
          intro h; rw [h] at hlen; simp at hlen
        obtain ⟨x2, e, hd2, hl2⟩ := ctorLoop_cons c n x hc hd ha
        rw [e]
        refine ctorLoop_zero n x2 hd2 ?_ ?_
        · simp only [List.length_cons] at hlen; omega
        · rcases List.mem_cons.mp hmem with h | h
          · exact absurd h.symm hc
          · exact h

/-- The constructor loop returns when no `'0'` is among the characters and the
arena has a free cell for every character. -/
theorem ctorLoop_ok : ∀ (n : List Char) (x : BigUint), x.data ≠ [] →
    n.length ≤ x.after.length → '0' ∉ n → ∃ r, ctorLoop n x = .ok r
  | [], x, _, _, _ => ⟨x, rfl⟩
  | c :: n, x, hd, hlen, hmem => by
      have hc : c ≠ '0' := fun h => hmem (by simp [h])
      have ha : x.after ≠ [] := by
        intro h; rw [h] at hlen; simp at hlen
      obtain ⟨x2, e, hd2, hl2⟩ := ctorLoop_cons c n x hc hd ha
      rw [e]
      refine ctorLoop_ok n x2 hd2 ?_ ?_
      · simp only [List.length_cons] at hlen; omega
      · exact fun h => hmem (List.mem_cons_of_mem _ h)

theorem wadd_of_lt (x y : Nat) (h : x + y < U64) : wadd x y = x + y :=
  Nat.mod_eq_of_lt h

theorem wmul_of_lt (x y : Nat) (h : x * y < U64) : wmul x y = x * y :=
  Nat.mod_eq_of_lt h

theorem nonzeroDigit_bounds (c : Char) (h : isNonzeroDigit c = true) :
    1 ≤ c.toNat - 48 ∧ c.toNat - 48 ≤ 9 := by
  simp only [isNonzeroDigit, Bool.and_eq_true, decide_eq_true_eq] at h
  omega

/-- The constructor loop on characters in `'1'..'9'`, once the last limb holds
a nonzero digit: every character opens a new limb holding its digit. -/
theorem ctorLoop_digits : ∀ (cs : List Char) (x : BigUint) (pre : List Nat) (d : Nat),
    (∀ c ∈ cs, isNonzeroDigit c = true) → x.data = pre ++ [d] → 1 ≤ d → d ≤ 9 →
    (∀ z ∈ x.after, z = 0) → cs.length ≤ x.after.length →
    ∃ r, ctorLoop cs x = .ok r ∧ r.data = pre ++ [d] ++ cs.map (fun c => c.toNat - 48)
  | [], x, pre, d, _, hx, _, _, _, _ => ⟨x, rfl, by simp [hx]⟩
  | c :: cs, x, pre, d, hcs, hx, hd1, hd9, hz, hlen => by
      have hc : isNonzeroDigit c = true := hcs c (List.mem_cons_self _ _)
      obtain ⟨g1, g9⟩ := nonzeroDigit_bounds c hc
      cases hafter : x.after with
      | nil => rw [hafter] at hlen; simp at hlen
      | cons a0 rest =>
          have ha0 : a0 = 0 := hz a0 (by rw [hafter]; exact List.mem_cons_self _ _)
          subst ha0
          have hov : wadd (wmul d DECIMAL_BASE) (c.toNat - 48) > BIGDIGIT_BASE := by
            rw [wmul_of_lt _ _ (by unfold DECIMAL_BASE U64; omega),
              wadd_of_lt _ _ (by unfold DECIMAL_BASE U64; omega)]
            unfold DECIMAL_BASE BIGDIGIT_BASE; omega
          have hpush : wadd (wmul 0 10) (c.toNat - 48) = c.toNat - 48 := by
            rw [wmul_of_lt _ _ (by unfold U64; omega), wadd_of_lt _ _ (by unfold U64; omega)]
            omega
          have hx1 : ({ x with data := x.data ++ [0], after := rest } : BigUint).data
              = (pre ++ [d]) ++ [0] := by simp [hx]
          obtain ⟨r, hr, hrd⟩ := ctorLoop_digits cs
            { x with data := (pre ++ [d]) ++ [c.toNat - 48], after := rest } (pre ++ [d])
            (c.toNat - 48) (fun c1 h1 => hcs c1 (List.mem_cons_of_mem _ h1)) rfl g1 g9
            (fun z hzr => hz z (by rw [hafter]; exact List.mem_cons_of_mem _ hzr))
            (by rw [hafter] at hlen; simpa using hlen)
          refine ⟨r, ?_, by rw [hrd]; simp⟩
          rw [← hr]
          simp only [ctorLoop, ExtractDigit, ne_zero_of_nonzeroDigit c hc, if_false,
            CreatesOverflow, back_of_data x pre d hx, digit_of_nonzeroDigit c hc, hov,
            decide_True, if_true, ExtendNumberRight, hafter, PushBackDigit,
            back_of_data _ _ _ hx1, setBack_of_data _ _ _ _ hx1, hpush]

theorem printLimbs_digits : ∀ (cs : List Char), (∀ c ∈ cs, isNonzeroDigit c = true) →
    printLimbs (cs.map (fun c => c.toNat - 48)) = cs
  | [], _ => rfl
  | c :: cs, h => by
      simp only [List.map_cons, printLimbs,
        printLimb_of_nonzeroDigit c (h c (List.mem_cons_self _ _)),
        printLimbs_digits cs (fun c1 h1 => h c1 (List.mem_cons_of_mem _ h1))]
      rfl

theorem SkipZeroes_of_nonzeroDigit (c : Char) (cs : List Char) (h : c ≠ '0') :
    SkipZeroes (c :: cs) = c :: cs := by
  simp [SkipZeroes, h]

/-- The constructor loop on characters in `'1'..'9'`, once the last limb holds
a nonzero value, when the characters outnumber the free cells behind the
window of an object that owns its arena: `ExtendNumberRight` ends in
`ReallocateStorage`. -/
theorem ctorLoop_digits_abort : ∀ (cs : List Char) (x : BigUint) (pre : List Nat) (d : Nat),
    (∀ c ∈ cs, isNonzeroDigit c = true) → x.data = pre ++ [d] → 1 ≤ d → d ≤ 1000 →
    (∀ z ∈ x.after, z = 0) → x.owns = true → x.after.length < cs.length →
    ctorLoop cs x = .error .aborted
  | [], x, pre, d, _, _, _, _, _, _, hlen => by simp at hlen
  | c :: cs, x, pre, d, hcs, hx, hd1, hd9, hz, hown, hlen => by
      have hc : isNonzeroDigit c = true := hcs c (List.mem_cons_self _ _)
      obtain ⟨g1, g9⟩ := nonzeroDigit_bounds c hc
      have hov : wadd (wmul d DECIMAL_BASE) (c.toNat - 48) > BIGDIGIT_BASE := by
        rw [wmul_of_lt _ _ (by unfold DECIMAL_BASE U64; omega),
          wadd_of_lt _ _ (by unfold DECIMAL_BASE U64; omega)]
        unfold DECIMAL_BASE BIGDIGIT_BASE; omega
      cases hafter : x.after with
      | nil =>
          simp only [ctorLoop, ExtractDigit, ne_zero_of_nonzeroDigit c hc, if_false,
            CreatesOverflow, back_of_data x pre d hx, digit_of_nonzeroDigit c hc, hov,
            decide_True, if_true, ExtendNumberRight, hafter, hown, ReallocateStorage]
      | cons a0 rest =>
          have ha0 : a0 = 0 := hz a0 (by rw [hafter]; exact List.mem_cons_self _ _)
          subst ha0
          have hpush : wadd (wmul 0 10) (c.toNat - 48) = c.toNat - 48 := by
            rw [wmul_of_lt _ _ (by unfold U64; omega), wadd_of_lt _ _ (by unfold U64; omega)]
            omega
          have hx1 : ({ x with data := x.data ++ [0], after := rest } : BigUint).data
              = (pre ++ [d]) ++ [0] := by simp [hx]
          have ih := ctorLoop_digits_abort cs
            { x with data := (pre ++ [d]) ++ [c.toNat - 48], after := rest } (pre ++ [d])
            (c.toNat - 48) (fun c1 h1 => hcs c1 (List.mem_cons_of_mem _ h1)) rfl g1 (by omega)
            (fun z hzr => hz z (by rw [hafter]; exact List.mem_cons_of_mem _ hzr)) hown
            (by rw [hafter] at hlen; simpa using hlen)
          rw [← ih]
          simp only [ctorLoop, ExtractDigit, ne_zero_of_nonzeroDigit c hc, if_false,
            CreatesOverflow, back_of_data x pre d hx, digit_of_nonzeroDigit c hc, hov,
            decide_True, if_true, ExtendNumberRight, hafter, PushBackDigit,
            back_of_data _ _ _ hx1, setBack_of_data _ _ _ _ hx1, hpush]

theorem all_ones_nonzeroDigit (n : Nat) : ∀ c ∈ List.replicate n '1', isNonzeroDigit c = true := by
  intro c hc
  rw [List.eq_of_mem_replicate hc]
  rfl

/-- The first round of the constructor loop on a character in `'1'..'9'`: the
digit is folded into the limb the window starts with. -/
theorem ctorLoop_first_digit (c : Char) (cs : List Char) (hc : isNonzeroDigit c = true) :
    ctorLoop (c :: cs) BigUint.fresh
      = ctorLoop cs { BigUint.fresh with data := [] ++ [c.toNat - 48] } := by
  obtain ⟨g1, g9⟩ := nonzeroDigit_bounds c hc
  have hov : ¬ wadd (wmul 0 DECIMAL_BASE) (c.toNat - 48) > BIGDIGIT_BASE := by
    rw [wmul_of_lt _ _ (by unfold DECIMAL_BASE U64; omega),
      wadd_of_lt _ _ (by unfold DECIMAL_BASE U64; omega)]
    unfold DECIMAL_BASE BIGDIGIT_BASE; omega
  have hpush : wadd (wmul 0 10) (c.toNat - 48) = c.toNat - 48 := by
    rw [wmul_of_lt _ _ (by unfold U64; omega), wadd_of_lt _ _ (by unfold U64; omega)]
    omega
  have hfresh : BigUint.fresh.data = [] ++ [0] := rfl
  simp only [ctorLoop, ExtractDigit, ne_zero_of_nonzeroDigit c hc, if_false,
    CreatesOverflow, back_of_data _ _ _ hfresh, digit_of_nonzeroDigit c hc, hov,
    decide_False, Bool.false_eq_true, PushBackDigit, setBack_of_data _ _ _ _ hfresh, hpush]

/-- The first round of the constructor loop on the character `'a'`: a second
limb is opened and receives 49. -/
theorem ctorLoop_first_letter (cs : List Char) :
    ctorLoop ('a' :: cs) BigUint.fresh
      = ctorLoop cs { BigUint.fresh with data := [0] ++ [49], after := List.replicate 498 0 } := by
  have hdigit : toU64 (toChar (charValue 'a' - charValue '0')) = 49 := by decide
  have hov : wadd (wmul 0 DECIMAL_BASE) 49 > BIGDIGIT_BASE := by decide
  have hpush : wadd (wmul 0 10) 49 = 49 := by decide
  have hne : ('a' : Char) ≠ '0' := by decide
  have hfresh : BigUint.fresh.data = [] ++ [0] := rfl
  have hafter : BigUint.fresh.after = 0 :: List.replicate 498 0 := List.replicate_succ 0 498
  have hx1 : ({ BigUint.fresh with
      data := BigUint.fresh.data ++ [0], after := List.replicate 498 0 } : BigUint).data
      = [0] ++ [0] := rfl
  simp only [ctorLoop, ExtractDigit, hne, if_false, CreatesOverflow,
    back_of_data _ _ _ hfresh, hdigit, hov, decide_True, if_true, ExtendNumberRight, hafter,
    PushBackDigit, back_of_data _ _ _ hx1, setBack_of_data _ _ _ _ hx1, hpush]

/-! ## The capacity of the arena -/

/-- A string of 501 characters `'1'` makes the constructor abort. -/
theorem ctor_aborts_on_501_digits :
    BigUint.ofString (String.mk (List.replicate 501 '1')) = .error .aborted := by
  have hlen : (List.replicate 499 (0 : Nat)).length < (List.replicate 500 '1').length := by
    rw [List.length_replicate, List.length_replicate]; omega
  have h := ctorLoop_digits_abort (List.replicate 500 '1')
    { BigUint.fresh with data := [] ++ [1] } [] 1 (all_ones_nonzeroDigit 500) rfl
    (by omega) (by omega) (fun z hz => List.eq_of_mem_replicate hz) rfl hlen
  have hrep : List.replicate 501 '1' = '1' :: List.replicate 500 '1' :=
    List.replicate_succ '1' 500
  have hone : isNonzeroDigit '1' = true := rfl
  rw [← h]
  simp only [BigUint.ofString, hrep,
    SkipZeroes_of_nonzeroDigit '1' _ (ne_zero_of_nonzeroDigit '1' hone)]
  exact ctorLoop_first_digit '1' _ hone

/-- The character `'a'` followed by 499 characters `'1'` makes the constructor
abort. -/
theorem ctor_aborts_on_letter_and_499_digits :
    BigUint.ofString (String.mk ('a' :: List.replicate 499 '1')) = .error .aborted := by
  have hlen : (List.replicate 498 (0 : Nat)).length < (List.replicate 499 '1').length := by
    rw [List.length_replicate, List.length_replicate]; omega
  have h := ctorLoop_digits_abort (List.replicate 499 '1')
    { BigUint.fresh with data := [0] ++ [49], after := List.replicate 498 0 } [0] 49
    (all_ones_nonzeroDigit 499) rfl
    (by omega) (by omega) (fun z hz => List.eq_of_mem_replicate hz) rfl hlen
  have hne : ('a' : Char) ≠ '0' := by decide
  rw [← h]
  simp only [BigUint.ofString, SkipZeroes_of_nonzeroDigit 'a' _ hne]
  exact ctorLoop_first_letter _

/-! ## Claims on the constructor and on output -/

/-- Claim C1, as amended. For the string of the one character zero, and for
every string of between 1 and 500 characters that are all in the range
`'1'..'9'`, the constructor returns an object and the output operator prints
that same string. -/
theorem roundtrip_nonzero_digits (s : String)
    (h : s = "0" ∨ (s.data ≠ [] ∧ (∀ c ∈ s.data, isNonzeroDigit c = true) ∧ s.length ≤ 500)) :
    ∃ x, BigUint.ofString s = .ok x ∧ operatorOut x = s := by
  rcases h with h | ⟨hne, hdig, hlen⟩
  · subst h
    exact ⟨BigUint.fresh, rfl, rfl⟩
  · obtain ⟨cs⟩ := s
    simp only [String.length] at hlen
    simp only at hne hdig
    cases cs with
    | nil => exact absurd rfl hne
    | cons c cs =>
        have hc : isNonzeroDigit c = true := hdig c (List.mem_cons_self _ _)
        obtain ⟨g1, g9⟩ := nonzeroDigit_bounds c hc
        have hov : ¬ wadd (wmul 0 DECIMAL_BASE) (c.toNat - 48) > BIGDIGIT_BASE := by
          rw [wmul_of_lt _ _ (by unfold DECIMAL_BASE U64; omega),
            wadd_of_lt _ _ (by unfold DECIMAL_BASE U64; omega)]
          unfold DECIMAL_BASE BIGDIGIT_BASE; omega
        have hpush : wadd (wmul 0 10) (c.toNat - 48) = c.toNat - 48 := by
          rw [wmul_of_lt _ _ (by unfold U64; omega), wadd_of_lt _ _ (by unfold U64; omega)]
          omega
        have hfresh : BigUint.fresh.data = [] ++ [0] := rfl
        obtain ⟨r, hr, hrd⟩ := ctorLoop_digits cs
          { BigUint.fresh with data := [] ++ [c.toNat - 48] } [] (c.toNat - 48)
          (fun c1 h1 => hdig c1 (List.mem_cons_of_mem _ h1)) rfl g1 g9
          (fun z hz => List.eq_of_mem_replicate hz)
          (by
            have h499 : BigUint.fresh.after.length = 499 := List.length_replicate 499 0
            simp only [List.length_cons] at hlen
            show cs.length ≤ BigUint.fresh.after.length
            omega)
        refine ⟨r, ?_, ?_⟩
        · rw [← hr]
          simp only [BigUint.ofString, SkipZeroes_of_nonzeroDigit c cs (ne_zero_of_nonzeroDigit c hc),
            ctorLoop, ExtractDigit, ne_zero_of_nonzeroDigit c hc, if_false,
            CreatesOverflow, back_of_data _ _ _ hfresh, digit_of_nonzeroDigit c hc, hov,
            decide_False, Bool.false_eq_true, PushBackDigit, setBack_of_data _ _ _ _ hfresh, hpush]
        · simp only [operatorOut, hrd]
          congr 1
          have := printLimbs_digits (c :: cs) hdig
          simpa using this

/-- Witness of C1 at the string "12". -/
theorem roundtrip_nonzero_digits_witness :
    ("12" = "0" ∨ (("12" : String).data ≠ [] ∧
        (∀ c ∈ ("12" : String).data, isNonzeroDigit c = true) ∧ ("12" : String).length ≤ 500)) ∧
      ∃ x, BigUint.ofString "12" = .ok x ∧ operatorOut x = "12" :=
  ⟨Or.inr ⟨by decide, by decide, by decide⟩,
    roundtrip_nonzero_digits "12" (Or.inr ⟨by decide, by decide, by decide⟩)⟩

/-- Counterexample to C1 as stated. The string "10" is a decimal string without
leading zeros, and the constructor throws on it: the second assertion of
`ExtractDigit` rejects its second character. A string of 501 characters `'1'`
makes the constructor abort. -/
theorem roundtrip_fails_on_interior_zero :
    isCanonicalDecimal "10" = true ∧ BigUint.ofString "10" = .error .assertion ∧
      BigUint.ofString (String.mk (List.replicate 501 '1')) = .error .aborted :=
  ⟨by decide, by decide, ctor_aborts_on_501_digits⟩

/-! ## Claims on addition and subtraction at given inputs -/

/-- Claim C2 at its failing input. The three scenarios of the specification
print "12", "10" and "0", but for "999" and "1" the text printed is "9100", not
"1000": the carry left over after `span_small` is added to the next limb, which
holds 9, without a further carry. -/
theorem sum_999_1_prints_9100 :
    sumOfStrings "5" "7" = .ok "12" ∧ sumOfStrings "9" "1" = .ok "10" ∧
      sumOfStrings "0" "0" = .ok "0" ∧ sumOfStrings "999" "1" = .ok "9100" := by
  decide

/-- Claim C3 at its failing inputs. For "211" and "199" the difference has the
limbs `[0, 2, 2]`, which denote 22 and are printed as "022", whereas
211 - 199 = 12. For the limbs of 1000 (obtained as 555 + 445) and of 999 the
text printed is "0111". -/
theorem difference_211_199_is_22 :
    differenceLimbs "211" "199" = .ok [0, 2, 2] ∧ value [0, 2, 2] = 22 ∧
      differenceOfStrings "211" "199" = .ok "022" ∧
      ((BigUint.ofString "555").bind fun x => (BigUint.ofString "445").bind fun y =>
        (x.operatorPlus y).bind fun a => (BigUint.ofString "999").bind fun b =>
          (a.operatorMinus b).map fun r => (a.data, operatorOut r))
        = .ok ([1, 0, 0, 0], "0111") := by
  decide

/-- The comparison stays inside the arena when both spans are followed by a cell. -/
theorem ltLoop_ok : ∀ (n : Nat) (a b : List Nat), n < a.length → n < b.length →
    ∃ v, ComparisonProxy.ltLoop n a b = .ok v
  | 0, x :: _, y :: _, _, _ => ⟨decide (x < y), rfl⟩
  | 0, [], _, h, _ => by simp at h
  | 0, _ :: _, [], _, h => by simp at h
  | n + 1, [], _, h, _ => by simp at h
  | n + 1, _ :: _, [], _, h => by simp at h
  | n + 1, x :: a, y :: b, ha, hb => by
      simp only [ComparisonProxy.ltLoop]
      by_cases hxy : x = y
      · simp only [hxy, if_true]
        exact ltLoop_ok n a b (by simpa using ha) (by simpa using hb)
      · exact ⟨false, by simp [hxy]⟩

/-- `operator==` holds between two objects with the same window. -/
theorem eqLoop_same : ∀ (d x y : List Nat),
    ComparisonProxy.eqLoop d.length (d ++ x) (d ++ y) = .ok true
  | [], _, _ => rfl
  | c :: d, x, y => by
      simp only [List.length_cons, List.cons_append, ComparisonProxy.eqLoop, if_true]
      exact eqLoop_same d x y

theorem operatorEq_of_data_eq (r1 r2 : BigUint) (h : r1.data = r2.data) :
    r1.operatorEq r2 = .ok true := by
  have := eqLoop_same r1.data r1.after r2.after
  simp [BigUint.operatorEq, BigUint.Size, ComparisonProxy.operatorEq, BigUint.proxy, ← h, this]


theorem plusLoop_ok : ∀ (s r done : List Nat) (ov : Bool), s.length ≤ r.length →
    ∃ res done1 ov1, plusLoop s r done ov = .ok (res, done1, ov1) ∧
      res.length = r.length - s.length
  | [], r, done, ov, _ => ⟨r, done, ov, rfl, by simp⟩
  | _ :: _, [], _, _, h => by simp at h
  | s :: ss, r :: rs, done, ov, h => by
      have hlen : ss.length ≤ rs.length := by simpa using h
      simp only [plusLoop]
      split
      · obtain ⟨res, d, o, e, l⟩ := plusLoop_ok ss rs (wsub (wadd r (wadd s (ofBool ov))) BIGDIGIT_BASE :: done) true hlen
        exact ⟨res, d, o, e, by simpa using l⟩
      · obtain ⟨res, d, o, e, l⟩ := plusLoop_ok ss rs (wadd r (wadd s (ofBool ov)) :: done) false hlen
        exact ⟨res, d, o, e, by simpa using l⟩

/-- The body of `operator+` returns when `smaller` is not longer than `bigger`
and a cell is free in front of the window of `bigger`. -/
theorem plusBody_ok (sm bg : BigUint) (hlen : sm.data.length ≤ bg.data.length)
    (hb : bg.before ≠ []) : ∃ r, plusBody sm bg = .ok r := by
  obtain ⟨res, d, o, e, -⟩ := plusLoop_ok sm.data.reverse bg.data.reverse [] false (by simpa using hlen)
  obtain ⟨c, rest, hc⟩ := List.exists_cons_of_ne_nil hb
  cases o with
  | false => exact ⟨_, by simp only [plusBody, BigUint.copy, e]; rfl⟩
  | true =>
      cases res with
      | nil => exact ⟨{ bg.copy with data := 1 :: d, before := rest }, by
          simp [plusBody, BigUint.copy, e, ExtendNumberLeft, hc, BigUint.setFront]⟩
      | cons x xs => exact ⟨_, by simp only [plusBody, BigUint.copy, e]; rfl⟩

/-- On two spans of the same size that differ in some limb the loop of
`ComparisonProxy::operator<` stops at the first differing limb and the return
statement yields false. -/
theorem ltLoop_differ : ∀ (d e x y : List Nat), d.length = e.length → d ≠ e →
    ComparisonProxy.ltLoop d.length (d ++ x) (e ++ y) = .ok false
  | [], [], _, _, _, h => absurd rfl h
  | [], _ :: _, _, _, h, _ => by simp at h
  | _ :: _, [], _, _, h, _ => by simp at h
  | c :: d, c1 :: e, x, y, hlen, hne => by
      simp only [List.length_cons, List.cons_append, ComparisonProxy.ltLoop]
      by_cases hc : c = c1
      · subst hc
        simp only [if_true]
        exact ltLoop_differ d e x y (by simpa using hlen) (fun h => hne (by rw [h]))
      · simp [hc]

/-- `operator<` is false for any two objects of the same size whose limbs
differ, whichever of the two is the smaller number. -/
theorem operatorLess_same_size_differ (a b : BigUint) (hs : a.Size = b.Size)
    (hd : a.data ≠ b.data) : a.operatorLess b = .ok false := by
  have := ltLoop_differ a.data b.data a.after b.after hs hd
  simp only [BigUint.operatorLess, hs, if_true, ComparisonProxy.operatorLess, BigUint.proxy]
  exact this

/-! ## Claims on commutativity and ordering -/

/-- Claim C6 at its failing input. The objects built from "3" and "5" have one
limb each and the limb of the first is the smaller one, but `operator<` returns
false: the return statement of `ComparisonProxy::operator<` yields false
whenever the loop stopped at a differing limb. -/
theorem less_3_5_is_false :
    ((BigUint.ofString "3").bind fun a => (BigUint.ofString "5").bind fun b =>
      a.operatorLess b) = .ok false := by
  decide

/-- Claim C7 at its failing input. With `a` built from "3" and `b` from "5",
`Compare(a, b)` is `Greater`, not `Less`, while `Compare(b, a)` is `Greater`. -/
theorem compare_3_5_both_greater :
    ((BigUint.ofString "3").bind fun a => (BigUint.ofString "5").bind fun b =>
      (Compare a b).bind fun x => (Compare b a).map fun y => (x, y))
      = .ok (Ordering3.Greater, Ordering3.Greater) := by
  decide

/-- Claim C8 at its failing input. `BigUint("5") - BigUint("3")` prints "2",
while `BigUint("3") - BigUint("5")` does not complete: `OrderedRefs` takes the
first operand as `bigger`, no limb is left to borrow from and `LoanOne`
dereferences the null pointer. -/
theorem difference_3_5_null_deref :
    differenceOfStrings "5" "3" = .ok "2" ∧
      differenceOfStrings "3" "5" = .error .nullDeref := by
  decide

/-! ## Lemmas on subtraction -/

theorem wsub_self (r : Nat) : wsub r r = 0 := by
  unfold wsub U64; omega

theorem carryLoop_noop (c : Nat) (cells : List Nat) (h : c ≤ BIGDIGIT_BASE) :
    carryLoop 0 (c :: cells) = .ok (c :: cells) := by
  have h1 : wadd c 0 = c := by unfold wadd U64; unfold BIGDIGIT_BASE at h; omega
  simp only [carryLoop, h1]
  rw [if_neg (by omega)]

/-- `CarryOverflow` changes nothing when the last limb of the window is at most
`BIGDIGIT_BASE`. -/
theorem CarryOverflow_noop (c : Cursor) (x : Nat) (cells : List Nat)
    (h : c.done.reverse ++ c.view ++ c.before = x :: cells) (hx : x ≤ BIGDIGIT_BASE) :
    CarryOverflow c = .ok c := by
  obtain ⟨view, done, before⟩ := c
  simp only at h
  simp only [CarryOverflow, h, carryLoop_noop x cells hx]
  rw [← h]
  simp [List.take_append_eq_append_take, List.drop_append_eq_append_drop]


/-- The first cell of `done.reverse ++ view ++ before` is bounded when all cells
of `done` and the head of `view` are. -/
theorem head_window_le (done : List Nat) (r : Nat) (left before : List Nat) (k : Nat)
    (hd : ∀ d ∈ done, d ≤ k) (hr : r ≤ k) :
    ∃ x cells, done.reverse ++ (r :: left) ++ before = x :: cells ∧ x ≤ k := by
  cases hrev : done.reverse with
  | nil => exact ⟨r, left ++ before, by simp, hr⟩
  | cons x xs =>
      refine ⟨x, xs ++ (r :: left) ++ before, by simp, hd x ?_⟩
      have : x ∈ done.reverse := by rw [hrev]; exact List.mem_cons_self _ _
      simpa using this

/-- The loop of `operator-` on two windows with the same limbs, all below the
base: no loan is taken and every limb of the result becomes zero. -/
theorem minusLoop_equal (tb : Bool) : ∀ (v doneR doneS bR bS : List Nat),
    (∀ d ∈ v, d < BIGDIGIT_BASE) → (∀ d ∈ doneR, d = 0) → (∀ d ∈ doneS, d < BIGDIGIT_BASE) →
    ∃ small1, minusLoop tb v.length ⟨v, doneR, bR⟩ ⟨v, doneS, bS⟩ =
      .ok (⟨[], List.replicate v.length 0 ++ doneR, bR⟩, small1)
  | [], doneR, doneS, bR, bS, _, _, _ => ⟨⟨[], doneS, bS⟩, by simp [minusLoop]⟩
  | r :: left, doneR, doneS, bR, bS, hv, hR, hS => by
      have hr : r < BIGDIGIT_BASE := hv r (List.mem_cons_self _ _)
      have hleft : ∀ d ∈ left, d < BIGDIGIT_BASE := fun d hd => hv d (List.mem_cons_of_mem _ hd)
      obtain ⟨x1, c1, e1, hx1⟩ := head_window_le doneR 0 left bR BIGDIGIT_BASE
        (fun d hd => by rw [hR d hd]; exact Nat.zero_le _) (Nat.zero_le _)
      obtain ⟨x2, c2, e2, hx2⟩ := head_window_le doneS r left bS BIGDIGIT_BASE
        (fun d hd => Nat.le_of_lt (hS d hd)) (Nat.le_of_lt hr)
      have k1 : CarryOverflow ⟨0 :: left, doneR, bR⟩ = .ok ⟨0 :: left, doneR, bR⟩ :=
        CarryOverflow_noop _ x1 c1 e1 hx1
      have k2 : CarryOverflow ⟨r :: left, doneS, bS⟩ = .ok ⟨r :: left, doneS, bS⟩ :=
        CarryOverflow_noop _ x2 c2 e2 hx2
      obtain ⟨small1, ih⟩ := minusLoop_equal tb left (0 :: doneR) (r :: doneS) bR bS hleft
        (fun d hd => by
          rcases List.mem_cons.mp hd with h | h
          · exact h
          · exact hR d h)
        (fun d hd => by
          rcases List.mem_cons.mp hd with h | h
          · rw [h]; exact hr
          · exact hS d h)
      refine ⟨small1, ?_⟩
      have hrep : List.replicate (left.length + 1) 0 ++ doneR
          = List.replicate left.length 0 ++ 0 :: doneR := by
        rw [List.replicate_succ', List.append_assoc]; rfl
      simp only [List.length_cons, minusLoop, Nat.lt_irrefl, if_false, wsub_self]
      cases tb
      · simp only [k2, Cursor.ShrinkSpan, Bool.false_eq_true, if_false]
        rw [hrep]; exact ih
      · simp only [k1, Cursor.ShrinkSpan, if_true]
        rw [hrep]; exact ih

theorem printLimbs_zeros (n : Nat) : printLimbs (List.replicate n 0) = List.replicate n '0' := by
  induction n with
  | zero => rfl
  | succ n ih => simp only [List.replicate_succ, printLimbs, ih]; rfl

theorem minusBody_equal (tb : Bool) (sm bg : BigUint) (h : sm.data = bg.data)
    (hI2 : LimbsInRange bg) :
    ∃ r, minusBody tb sm bg = .ok r ∧ r.data = List.replicate bg.Size 0 := by
  obtain ⟨small1, hl⟩ := minusLoop_equal tb bg.data.reverse [] [] bg.before sm.before
    (fun d hd => hI2 d (by simpa using hd)) (by simp) (by simp)
  refine ⟨{ bg.copy with data := List.replicate bg.Size 0 }, ?_, rfl⟩
  simp only [List.length_reverse, List.append_nil] at hl
  simp only [minusBody, BigUint.cursor, BigUint.copy, BigUint.Size, h, hl, Cursor.window]
  simp

/-- The shape of `operator-` on two operands of the same size. -/
theorem operatorMinus_same_size (x y : BigUint) (hxy : x.Size = y.Size) :
    x.operatorMinus y =
      match ComparisonProxy.ltLoop x.data.length (x.data ++ x.after) (y.data ++ y.after) with
      | .error e => .error e
      | .ok true => minusBody false x y
      | .ok false => minusBody true y x := by
  simp only [BigUint.operatorMinus, OrderedRefs, BigUint.operatorLess, hxy, if_true,
    ComparisonProxy.operatorLess, BigUint.proxy]
  have hx : x.data.length = y.data.length := hxy
  rw [hx]
  cases ComparisonProxy.ltLoop y.data.length (x.data ++ x.after) (y.data ++ y.after) with
  | error e => rfl
  | ok v => cases v <;> rfl

/-! ## Equal operands at the end of the arena -/

/-- On two spans with the same limbs the loop of `ComparisonProxy::operator<`
ends at the cells behind the spans, and leaves the arena when one of the two
spans ends at the end of its arena. -/
theorem ltLoop_same_at_end : ∀ (d x y : List Nat), x = [] ∨ y = [] →
    ComparisonProxy.ltLoop d.length (d ++ x) (d ++ y) = .error .outOfArena
  | [], [], _, _ => rfl
  | [], _ :: _, [], _ => rfl
  | [], _ :: _, _ :: _, h => by simp at h
  | c :: d, x, y, h => by
      simp only [List.length_cons, List.cons_append, ComparisonProxy.ltLoop, if_true]
      exact ltLoop_same_at_end d x y h

/-- `operator<` on two objects with the same limbs leaves the arena when one of
the windows ends at the end of its arena. -/
theorem operatorLess_at_arena_end (a b : BigUint) (hab : a.data = b.data)
    (h : a.after = [] ∨ b.after = []) : a.operatorLess b = .error .outOfArena := by
  have := ltLoop_same_at_end a.data a.after b.after h
  simp [BigUint.operatorLess, BigUint.Size, ComparisonProxy.operatorLess, BigUint.proxy,
    ← hab, this]

/-- `operator+` and `operator-` on two objects with the same limbs do not
return when one of the windows ends at the end of its arena. -/
theorem arithmetic_at_arena_end (a b : BigUint) (hab : a.data = b.data)
    (h : a.after = [] ∨ b.after = []) :
    a.operatorPlus b = .error .outOfArena ∧ a.operatorMinus b = .error .outOfArena := by
  simp [BigUint.operatorPlus, BigUint.operatorMinus, OrderedRefs,
    operatorLess_at_arena_end a b hab h]

/-! ## Claims on subtraction of equal values and on rejected input -/

/-- Claim C9, as amended. For two objects with the same limbs, all below 10,
whose windows do not end at the end of their arenas, `a - b` returns an object
with one zero limb per limb of `a`, and the output operator prints one
character zero per limb of `a`. -/
theorem operatorMinus_equal_windows (a b : BigUint) (hab : a.data = b.data)
    (hI2 : LimbsInRange a) (ha : a.after ≠ []) (hb : b.after ≠ []) :
    ∃ r, a.operatorMinus b = .ok r ∧ r.data = List.replicate a.Size 0 ∧
      operatorOut r = String.mk (List.replicate a.Size '0') := by
  have hI2b : LimbsInRange b := by unfold LimbsInRange; rw [← hab]; exact hI2
  have hsz : a.Size = b.Size := by unfold BigUint.Size; rw [hab]
  obtain ⟨v, hv⟩ := ltLoop_ok a.data.length (a.data ++ a.after) (b.data ++ b.after)
    (by have := List.length_pos.mpr ha; simp; omega)
    (by have := List.length_pos.mpr hb; rw [hab]; simp; omega)
  have hres : ∃ r, a.operatorMinus b = .ok r ∧ r.data = List.replicate a.Size 0 := by
    rw [operatorMinus_same_size a b hsz, hv]
    cases v with
    | true =>
        obtain ⟨r, hr, hd⟩ := minusBody_equal false a b hab hI2b
        exact ⟨r, hr, by rw [hsz]; exact hd⟩
    | false =>
        obtain ⟨r, hr, hd⟩ := minusBody_equal true b a hab.symm hI2
        exact ⟨r, hr, hd⟩
  obtain ⟨r, hr, hd⟩ := hres
  exact ⟨r, hr, hd, by simp only [operatorOut, hd, printLimbs_zeros]⟩

/-- Witness of C9 at the window `[4, 2]`. -/
theorem operatorMinus_equal_windows_witness :
    ((BigUint.withLimbs [4, 2]).data = (BigUint.withLimbs [4, 2]).data ∧
      LimbsInRange (BigUint.withLimbs [4, 2]) ∧
      (BigUint.withLimbs [4, 2]).after ≠ []) ∧
    ∃ r, (BigUint.withLimbs [4, 2]).operatorMinus (BigUint.withLimbs [4, 2]) = .ok r ∧
      r.data = List.replicate (BigUint.withLimbs [4, 2]).Size 0 ∧
      operatorOut r = String.mk (List.replicate (BigUint.withLimbs [4, 2]).Size '0') :=
  ⟨⟨rfl, by unfold LimbsInRange; decide, by decide⟩,
    operatorMinus_equal_windows (BigUint.withLimbs [4, 2]) (BigUint.withLimbs [4, 2])
      rfl (by unfold LimbsInRange; decide) (by decide) (by decide)⟩

/-- Counterexample to C9 as stated. `BigUint("42") - BigUint("42")` prints
"00", not "0". -/
theorem difference_42_42_prints_00 : differenceOfStrings "42" "42" = .ok "00" := by
  decide

/-- Claim C10, as amended. For every string with at most 499 characters after
its leading zeros, the constructor throws when a character zero remains after
the leading zeros, and returns an object otherwise, whether or not the other
characters are digits. -/
theorem ctor_throws_iff_zero (s : String) (hlen : (SkipZeroes s.data).length ≤ 499) :
    ('0' ∈ SkipZeroes s.data → BigUint.ofString s = .error .assertion) ∧
    ('0' ∉ SkipZeroes s.data → ∃ x, BigUint.ofString s = .ok x) := by
  have hd : BigUint.fresh.data ≠ [] := List.cons_ne_nil 0 []
  have hl : (SkipZeroes s.data).length ≤ BigUint.fresh.after.length := by
    have h499 : BigUint.fresh.after.length = 499 := List.length_replicate 499 0
    omega
  exact ⟨ctorLoop_zero _ _ hd hl, ctorLoop_ok _ _ hd hl⟩

/-- Witness of C10 at the string "1a0". -/
theorem ctor_throws_iff_zero_witness :
    (SkipZeroes ("1a0" : String).data).length ≤ 499 ∧
      (('0' ∈ SkipZeroes ("1a0" : String).data → BigUint.ofString "1a0" = .error .assertion) ∧
       ('0' ∉ SkipZeroes ("1a0" : String).data → ∃ x, BigUint.ofString "1a0" = .ok x)) :=
  ⟨by decide, ctor_throws_iff_zero "1a0" (by decide)⟩

/-- Counterexample to C10 as stated. The string "a" holds a character that is
not a digit, and the constructor returns an object with the limbs `[0, 49]`,
printed as "049". -/
theorem ctor_accepts_letter :
    isDecimalDigit 'a' = false ∧
      (BigUint.ofString "a").map (fun x => (x.data, operatorOut x)) = .ok ([0, 49], "049") := by
  decide

/-! ## Lemmas on the value of a window -/

theorem foldl_value (l : List Nat) : ∀ acc : Nat,
    List.foldl (fun acc d => acc * 10 + d) acc l = acc * 10 ^ l.length + value l := by
  induction l with
  | nil => intro acc; simp [value]
  | cons x l ih =>
      intro acc
      have h1 := ih (acc * 10 + x)
      have h2 := ih (0 * 10 + x)
      simp only [value, List.foldl_cons, List.length_cons] at h1 h2 ⊢
      rw [h1, h2, pow_succ]
      ring

theorem value_nil : value [] = 0 := rfl

theorem value_cons (x : Nat) (l : List Nat) : value (x :: l) = x * 10 ^ l.length + value l := by
  have h := foldl_value l (0 * 10 + x)
  simp only [value, List.foldl_cons] at h ⊢
  rw [h]; simp

theorem value_append (l m : List Nat) :
    value (l ++ m) = value l * 10 ^ m.length + value m := by
  have h := foldl_value m (value l)
  simp only [value, List.foldl_append] at h ⊢
  exact h

theorem value_lt : ∀ (l : List Nat), (∀ x ∈ l, x < 10) → value l < 10 ^ l.length
  | [], _ => by simp [value]
  | x :: l, h => by
      have hx : x < 10 := h x (List.mem_cons_self _ _)
      have hl := value_lt l (fun y hy => h y (List.mem_cons_of_mem _ hy))
      rw [value_cons, List.length_cons, pow_succ]
      have hp : 0 < 10 ^ l.length := pow_pos (by norm_num : (0 : Nat) < 10) l.length
      nlinarith


/-! ## Lemmas on the loop of addition -/

theorem wadd3_of_lt (r s : Nat) (ov : Bool) (hr : r < 10) (hs : s < 10) :
    wadd r (wadd s (ofBool ov)) = r + s + ofBool ov := by
  have hc : ofBool ov ≤ 1 := by cases ov <;> simp [ofBool]
  rw [wadd_of_lt s _ (by unfold U64; omega), wadd_of_lt r _ (by unfold U64; omega)]
  omega

theorem wsub_base_of_le (v : Nat) (h1 : BIGDIGIT_BASE ≤ v) (h2 : v < 100) :
    wsub v BIGDIGIT_BASE = v - 10 := by
  simp only [wsub, BIGDIGIT_BASE, U64] at *
  omega

/-- What the loop of `operator+` leaves of `span_res`, and how many limbs it has
written. -/
theorem plusLoop_shape : ∀ (s r done : List Nat) (ov : Bool) (res done1 : List Nat) (ov1 : Bool),
    plusLoop s r done ov = .ok (res, done1, ov1) →
    res = r.drop s.length ∧ done1.length = done.length + s.length
  | [], r, done, ov, res, done1, ov1, h => by
      simp only [plusLoop, Except.ok.injEq, Prod.mk.injEq] at h
      obtain ⟨h1, h2, -⟩ := h
      subst h1 h2
      simp
  | _ :: _, [], _, _, _, _, _, h => by simp [plusLoop] at h
  | s :: ss, r :: rs, done, ov, res, done1, ov1, h => by
      simp only [plusLoop] at h
      split at h
      · obtain ⟨e1, e2⟩ := plusLoop_shape ss rs _ true res done1 ov1 h
        exact ⟨by simpa using e1, by rw [e2]; simp; omega⟩
      · obtain ⟨e1, e2⟩ := plusLoop_shape ss rs _ false res done1 ov1 h
        exact ⟨by simpa using e1, by rw [e2]; simp; omega⟩

/-- The loop of `operator+` on limbs below 10 writes limbs below 10. -/
theorem plusLoop_range : ∀ (s r done : List Nat) (ov : Bool) (res done1 : List Nat) (ov1 : Bool),
    (∀ x ∈ s, x < 10) → (∀ x ∈ r, x < 10) → (∀ x ∈ done, x < 10) →
    plusLoop s r done ov = .ok (res, done1, ov1) → ∀ x ∈ done1, x < 10
  | [], r, done, ov, res, done1, ov1, _, _, hd, h => by
      simp only [plusLoop, Except.ok.injEq, Prod.mk.injEq] at h
      obtain ⟨-, h2, -⟩ := h
      subst h2
      exact hd
  | _ :: _, [], _, _, _, _, _, _, _, _, h => by simp [plusLoop] at h
  | s :: ss, r :: rs, done, ov, res, done1, ov1, hs, hr, hd, h => by
      have hs0 : s < 10 := hs s (List.mem_cons_self _ _)
      have hr0 : r < 10 := hr r (List.mem_cons_self _ _)
      have hv := wadd3_of_lt r s ov hr0 hs0
      have hc : ofBool ov ≤ 1 := by cases ov <;> simp [ofBool]
      simp only [plusLoop, hv] at h
      split at h
      next hge =>
        refine plusLoop_range ss rs _ true res done1 ov1
          (fun y hy => hs y (List.mem_cons_of_mem _ hy))
          (fun y hy => hr y (List.mem_cons_of_mem _ hy)) ?_ h
        intro y hy
        rcases List.mem_cons.mp hy with e | e
        · rw [e, wsub_base_of_le _ hge (by omega)]; omega
        · exact hd y e
      next hlt =>
        refine plusLoop_range ss rs _ false res done1 ov1
          (fun y hy => hs y (List.mem_cons_of_mem _ hy))
          (fun y hy => hr y (List.mem_cons_of_mem _ hy)) ?_ h
        intro y hy
        rcases List.mem_cons.mp hy with e | e
        · rw [e]; simp only [BIGDIGIT_BASE] at hlt; omega
        · exact hd y e

/-- The loop of `operator+` on limbs below 10 keeps the number denoted by the
window together with the pending carry. -/
theorem plusLoop_value : ∀ (s r done : List Nat) (ov : Bool) (res done1 : List Nat) (ov1 : Bool),
    (∀ x ∈ s, x < 10) → (∀ x ∈ r, x < 10) →
    plusLoop s r done ov = .ok (res, done1, ov1) →
    value (res.reverse ++ done1) + ofBool ov1 * 10 ^ done1.length
      = value (r.reverse ++ done) + (value s.reverse + ofBool ov) * 10 ^ done.length
  | [], r, done, ov, res, done1, ov1, _, _, h => by
      simp only [plusLoop, Except.ok.injEq, Prod.mk.injEq] at h
      obtain ⟨h1, h2, h3⟩ := h
      subst h1 h2 h3
      simp [value_nil]
  | _ :: _, [], _, _, _, _, _, _, _, h => by simp [plusLoop] at h
  | s :: ss, r :: rs, done, ov, res, done1, ov1, hs, hr, h => by
      have hs0 : s < 10 := hs s (List.mem_cons_self _ _)
      have hr0 : r < 10 := hr r (List.mem_cons_self _ _)
      have hv := wadd3_of_lt r s ov hr0 hs0
      have hc : ofBool ov ≤ 1 := by cases ov <;> simp [ofBool]
      have hss : ∀ y ∈ ss, y < 10 := fun y hy => hs y (List.mem_cons_of_mem _ hy)
      have hrs : ∀ y ∈ rs, y < 10 := fun y hy => hr y (List.mem_cons_of_mem _ hy)
      simp only [plusLoop, hv] at h
      have key : ∀ (x : Nat) (o : Bool), x + 10 * ofBool o = r + s + ofBool ov →
          value (rs.reverse ++ x :: done) + (value ss.reverse + ofBool o) * 10 ^ (x :: done).length
            = value ((r :: rs).reverse ++ done)
              + (value (s :: ss).reverse + ofBool ov) * 10 ^ done.length := by
        intro x o hx
        simp only [List.reverse_cons, List.append_assoc, List.singleton_append, value_append,
          value_cons, List.length_cons, pow_succ, value_nil, List.length_nil, pow_zero]
        have hP := congrArg (fun t => t * 10 ^ done.length) hx
        simp only at hP
        nlinarith [hP]
      split at h
      next hge =>
        rw [plusLoop_value ss rs _ true res done1 ov1 hss hrs h]
        have h10 : 10 ≤ r + s + ofBool ov := hge
        have ht : ofBool true = 1 := rfl
        exact key _ true (by rw [wsub_base_of_le _ hge (by omega), ht]; omega)
      next hlt =>
        rw [plusLoop_value ss rs _ false res done1 ov1 hss hrs h]
        exact key _ false (by simp [ofBool])

/-! ## Lemmas on `operator+` as a whole -/

theorem limbsInRange_iff (x : BigUint) : LimbsInRange x ↔ ∀ d ∈ x.data, d < 10 := Iff.rfl

/-- The size test of `operator<`: when it yields true the first operand is not
longer than the second, otherwise the second is not longer than the first. -/
theorem operatorLess_sizes (a b : BigUint) (v : Bool) (h : a.operatorLess b = .ok v) :
    (v = true → a.Size ≤ b.Size) ∧ (v = false → b.Size ≤ a.Size) := by
  unfold BigUint.operatorLess at h
  by_cases hs : a.Size = b.Size
  · exact ⟨fun _ => Nat.le_of_eq hs, fun _ => Nat.le_of_eq hs.symm⟩
  · simp only [hs, if_false, Except.ok.injEq] at h
    subst h
    constructor
    · intro hv; have := of_decide_eq_true hv; omega
    · intro hv; have := of_decide_eq_false hv; omega

/-- `operator<` returns when neither window ends at the end of its arena. -/
theorem operatorLess_ok (a b : BigUint) (ha : a.after ≠ []) (hb : b.after ≠ []) :
    ∃ v, a.operatorLess b = .ok v := by
  unfold BigUint.operatorLess
  by_cases hs : a.Size = b.Size
  · simp only [hs, if_true, ComparisonProxy.operatorLess, BigUint.proxy]
    have hl : b.data.length = a.data.length := hs.symm
    exact ltLoop_ok _ _ _
      (by have := List.length_pos.mpr ha; simp; omega)
      (by have := List.length_pos.mpr hb; simp; omega)
  · exact ⟨decide (a.Size < b.Size), by simp only [hs, if_false]⟩

/-- `operator+` is the body of the operator on the two operands in the order
that `OrderedRefs` gives them, the first one being not longer than the second. -/
theorem operatorPlus_cases (a b r : BigUint) (h : a.operatorPlus b = .ok r) :
    (a.Size ≤ b.Size ∧ plusBody a b = .ok r) ∨ (b.Size ≤ a.Size ∧ plusBody b a = .ok r) := by
  unfold BigUint.operatorPlus OrderedRefs at h
  cases hl : a.operatorLess b with
  | error e => simp [hl] at h
  | ok v =>
      have hsz := operatorLess_sizes a b v hl
      cases v with
      | true => exact Or.inl ⟨hsz.1 rfl, by simpa [hl, Ref.get] using h⟩
      | false => exact Or.inr ⟨hsz.2 rfl, by simpa [hl, Ref.get] using h⟩

/-- `operator+` returns when a cell is free in front of each window and neither
window ends at the end of its arena. -/
theorem operatorPlus_returns (a b : BigUint) (ha : a.before ≠ []) (hb : b.before ≠ [])
    (haf : a.after ≠ []) (hbf : b.after ≠ []) : ∃ r, a.operatorPlus b = .ok r := by
  obtain ⟨v, hl⟩ := operatorLess_ok a b haf hbf
  have hsz := operatorLess_sizes a b v hl
  cases v with
  | true =>
      obtain ⟨r, hr⟩ := plusBody_ok a b (hsz.1 rfl) hb
      exact ⟨r, by simp [BigUint.operatorPlus, OrderedRefs, hl, Ref.get, hr]⟩
  | false =>
      obtain ⟨r, hr⟩ := plusBody_ok b a (hsz.2 rfl) ha
      exact ⟨r, by simp [BigUint.operatorPlus, OrderedRefs, hl, Ref.get, hr]⟩

/-- The three ways in which the body of `operator+` builds the window of the
result from what the loop returns. -/
theorem plusBody_data (sm bg r : BigUint) (h : plusBody sm bg = .ok r) :
    ∃ res done1 ov1, plusLoop sm.data.reverse bg.data.reverse [] false = .ok (res, done1, ov1) ∧
      ((ov1 = false ∧ r.data = res.reverse ++ done1) ∨
       (ov1 = true ∧ ∃ r0 rest, res = r0 :: rest ∧ r.data = (wadd r0 1 :: rest).reverse ++ done1) ∨
       (ov1 = true ∧ res = [] ∧ r.data = 1 :: done1)) := by
  unfold plusBody at h
  simp only [BigUint.copy] at h
  cases hl : plusLoop sm.data.reverse bg.data.reverse [] false with
  | error e => simp [hl] at h
  | ok t =>
      obtain ⟨res, done1, ov1⟩ := t
      refine ⟨res, done1, ov1, rfl, ?_⟩
      simp only [hl] at h
      cases ov1 with
      | false =>
          simp only [Bool.false_eq_true, if_false, Except.ok.injEq] at h
          exact Or.inl ⟨rfl, by rw [← h]⟩
      | true =>
          simp only [if_true] at h
          cases res with
          | cons r0 rest =>
              simp only [Except.ok.injEq] at h
              exact Or.inr (Or.inl ⟨rfl, r0, rest, rfl, by rw [← h]⟩)
          | nil =>
              refine Or.inr (Or.inr ⟨rfl, rfl, ?_⟩)
              cases hb : bg.before with
              | nil => simp [ExtendNumberLeft, hb, ReallocateStorage] at h
              | cons c rest =>
                  simp only [ExtendNumberLeft, hb, BigUint.setFront, Except.ok.injEq] at h
                  rw [← h]


/-- The body of `operator+` on limbs below 10 returns a window that denotes the
sum of the numbers denoted by the two windows. -/
theorem plusBody_value (sm bg r : BigUint) (hs : ∀ x ∈ sm.data, x < 10)
    (hb : ∀ x ∈ bg.data, x < 10) (h : plusBody sm bg = .ok r) :
    value r.data = value sm.data + value bg.data := by
  obtain ⟨res, done1, ov1, hl, hcase⟩ := plusBody_data sm bg r h
  have hv := plusLoop_value _ _ _ _ _ _ _ (fun x hx => hs x (by simpa using hx))
    (fun x hx => hb x (by simpa using hx)) hl
  obtain ⟨hres, -⟩ := plusLoop_shape _ _ _ _ _ _ _ hl
  simp only [List.reverse_reverse, List.append_nil, List.length_nil, pow_zero, mul_one, ofBool,
    Bool.false_eq_true, if_false, add_zero] at hv
  rcases hcase with ⟨ho, hd⟩ | ⟨ho, r0, rest, hr, hd⟩ | ⟨ho, hr, hd⟩
  · subst ho
    simp only [Bool.false_eq_true, if_false, zero_mul, add_zero] at hv
    rw [hd, hv]; ring
  · subst ho
    have hr0 : r0 < 10 := by
      have hmem : r0 ∈ bg.data.reverse := by
        have : r0 ∈ res := by rw [hr]; exact List.mem_cons_self _ _
        rw [hres] at this
        exact List.mem_of_mem_drop this
      exact hb r0 (by simpa using hmem)
    have hw : wadd r0 1 = r0 + 1 := wadd_of_lt _ _ (by unfold U64; omega)
    rw [hr] at hv
    simp only [if_true, one_mul, List.reverse_cons, List.append_assoc, List.singleton_append,
      value_append, value_cons, List.length_cons] at hv
    rw [hd, hw]
    simp only [List.reverse_cons, List.append_assoc, List.singleton_append, value_append,
      value_cons, List.length_cons]
    linarith
  · subst ho
    rw [hr] at hv
    simp only [if_true, one_mul, List.reverse_nil, List.nil_append] at hv
    rw [hd, value_cons]
    linarith

/-- In a window with more than one limb that has no leading zero the first limb
is not zero. -/
theorem head_ne_zero_of_long (x : BigUint) (h3 : NoLeadingZero x) (d : Nat) (rest : List Nat)
    (hx : x.data = d :: rest) (hr : rest ≠ []) : d ≠ 0 :=
  fun hd => hr (h3 d rest hx hd)

/-- The body of `operator+` with operands of the same size. -/
theorem plusBody_canonical_eq (sm bg r : BigUint) (hsz : sm.data.length = bg.data.length)
    (hs1 : WindowNonEmpty sm) (hs2 : ∀ x ∈ sm.data, x < 10) (hb2 : ∀ x ∈ bg.data, x < 10)
    (hs3 : NoLeadingZero sm) (hb3 : NoLeadingZero bg) (h : plusBody sm bg = .ok r) :
    WindowNonEmpty r ∧ NoLeadingZero r ∧ (r.data = [0] → sm.data = [0] ∧ bg.data = [0]) := by
  have hval := plusBody_value sm bg r hs2 hb2 h
  obtain ⟨res, done1, ov1, hl, hcase⟩ := plusBody_data sm bg r h
  obtain ⟨hres, hlen⟩ := plusLoop_shape _ _ _ _ _ _ _ hl
  have hrange := plusLoop_range _ _ _ _ _ _ _ (fun x hx => hs2 x (by simpa using hx))
    (fun x hx => hb2 x (by simpa using hx)) (by simp) hl
  have hres0 : res = [] := by
    rw [hres]; apply List.drop_eq_nil_of_le; simp [hsz]
  simp only [List.length_nil, List.length_reverse, zero_add] at hlen
  obtain ⟨s0, st, hsm⟩ := List.exists_cons_of_ne_nil hs1
  have hbne : bg.data ≠ [] := by
    intro hb; rw [hb, hsm] at hsz; simp at hsz
  obtain ⟨b0, bt, hbg⟩ := List.exists_cons_of_ne_nil hbne
  have htl : st.length = bt.length := by rw [hsm, hbg] at hsz; simpa using hsz
  rcases hcase with ⟨-, hd⟩ | ⟨-, r0, rest, hr, -⟩ | ⟨-, -, hd⟩
  · rw [hres0] at hd
    simp only [List.reverse_nil, List.nil_append] at hd
    have hrl : r.data.length = st.length + 1 := by rw [hd, hlen, hsm]; simp
    have hzero : ∀ d rest, r.data = d :: rest → d = 0 → s0 = 0 ∧ b0 = 0 := by
      intro d rest hrd hd0
      have hrest : ∀ x ∈ rest, x < 10 := fun x hx =>
        hrange x (by rw [← hd, hrd]; exact List.mem_cons_of_mem _ hx)
      have hlt := value_lt rest hrest
      have hrl2 : rest.length = st.length := by rw [hrd] at hrl; simpa using hrl
      rw [hrd, hsm, hbg, value_cons, value_cons, value_cons, hd0, hrl2, ← htl] at hval
      have hp : 0 < 10 ^ st.length := pow_pos (by norm_num : (0 : Nat) < 10) st.length
      rw [hrl2] at hlt
      constructor
      · by_contra hne
        have : 1 ≤ s0 := Nat.one_le_iff_ne_zero.mpr hne
        nlinarith
      · by_contra hne
        have : 1 ≤ b0 := Nat.one_le_iff_ne_zero.mpr hne
        nlinarith
    refine ⟨?_, ?_, ?_⟩
    · intro hnil; rw [hnil] at hrl; simp at hrl
    · intro d rest hrd hd0
      obtain ⟨hs0, -⟩ := hzero d rest hrd hd0
      have hst : st = [] := hs3 s0 st hsm hs0
      have hrl2 : rest.length = st.length := by rw [hrd] at hrl; simpa using hrl
      rw [hst] at hrl2
      exact List.length_eq_zero.mp hrl2
    · intro hr0
      obtain ⟨hs0, hb0⟩ := hzero 0 [] hr0 rfl
      have hst : st = [] := hs3 s0 st hsm hs0
      have hbt : bt = [] := hb3 b0 bt hbg hb0
      rw [hsm, hbg, hs0, hb0, hst, hbt]
      exact ⟨rfl, rfl⟩
  · rw [hres0] at hr; cases hr
  · refine ⟨by unfold WindowNonEmpty; rw [hd]; simp, ?_, ?_⟩
    · intro d rest hrd hd0
      rw [hd] at hrd
      simp only [List.cons.injEq] at hrd
      omega
    · intro hr0
      rw [hd] at hr0
      simp at hr0


/-- The body of `operator+` when `bigger` is the longer operand: the first limb
of the result is the first limb of `bigger`, or that limb plus one. -/
theorem plusBody_canonical_lt (sm bg r : BigUint) (hsz : sm.data.length < bg.data.length)
    (hs1 : WindowNonEmpty sm) (hb2 : ∀ x ∈ bg.data, x < 10)
    (hb3 : NoLeadingZero bg) (h : plusBody sm bg = .ok r) :
    WindowNonEmpty r ∧ NoLeadingZero r ∧ (r.data = [0] → sm.data = [0] ∧ bg.data = [0]) := by
  obtain ⟨res, done1, ov1, hl, hcase⟩ := plusBody_data sm bg r h
  obtain ⟨hres, hlen⟩ := plusLoop_shape _ _ _ _ _ _ _ hl
  simp only [List.length_nil, List.length_reverse, zero_add] at hlen hres
  have hsmpos : 0 < sm.data.length := List.length_pos.mpr hs1
  have hbne : bg.data ≠ [] := by
    intro hb; rw [hb] at hsz; simp at hsz
  obtain ⟨b0, bt, hbg⟩ := List.exists_cons_of_ne_nil hbne
  have hbt : bt ≠ [] := by
    intro hb; rw [hbg, hb] at hsz
    have h1 : ([b0] : List Nat).length = 1 := rfl
    omega
  have hb0 : b0 ≠ 0 := head_ne_zero_of_long bg hb3 b0 bt hbg hbt
  have hb0lt : b0 < 10 := hb2 b0 (by rw [hbg]; exact List.mem_cons_self _ _)
  have hres2 : res = (bt.reverse.drop sm.data.length) ++ [b0] := by
    rw [hres, hbg, List.reverse_cons]
    exact List.drop_append_of_le_length (by rw [hbg] at hsz; simp at hsz ⊢; omega)
  -- the window of the result starts with a limb that is not zero and has a second limb
  have hshape : ∃ d0 d1 rest, r.data = d0 :: d1 :: rest ∧ d0 ≠ 0 := by
    have hdone : done1 ≠ [] := by
      intro hd; rw [hd] at hlen; simp at hlen; omega
    obtain ⟨e0, et, hdn⟩ := List.exists_cons_of_ne_nil hdone
    rcases hcase with ⟨-, hd⟩ | ⟨-, r0, rest, hr, hd⟩ | ⟨-, hr, -⟩
    · rw [hd, hres2, hdn]
      cases hq : (bt.reverse.drop sm.data.length).reverse with
      | nil => exact ⟨b0, e0, et, by simp [hq], hb0⟩
      | cons q0 qt => exact ⟨b0, q0, qt ++ e0 :: et, by simp [hq], hb0⟩
    · rw [hres2] at hr
      cases hq : bt.reverse.drop sm.data.length with
      | nil =>
          rw [hq] at hr
          simp only [List.nil_append, List.cons.injEq] at hr
          obtain ⟨hr0, hrest⟩ := hr
          have hw : wadd r0 1 = r0 + 1 := wadd_of_lt _ _ (by unfold U64; omega)
          refine ⟨r0 + 1, e0, et, ?_, by omega⟩
          rw [hd, hdn, hw, ← hrest]; rfl
      | cons q0 qt =>
          rw [hq] at hr
          simp only [List.cons_append, List.cons.injEq] at hr
          obtain ⟨-, hrest⟩ := hr
          cases hq2 : qt.reverse with
          | nil =>
              refine ⟨b0, wadd r0 1, e0 :: et, ?_, hb0⟩
              rw [hd, hdn, ← hrest]; simp [hq2]
          | cons p0 pt =>
              refine ⟨b0, p0, pt ++ wadd r0 1 :: e0 :: et, ?_, hb0⟩
              rw [hd, hdn, ← hrest]; simp [hq2]
    · rw [hres2] at hr; simp at hr
  obtain ⟨d0, d1, rest, hrd, hd0⟩ := hshape
  refine ⟨by unfold WindowNonEmpty; rw [hrd]; simp, ?_, ?_⟩
  · intro d rest1 hrd1 hdz
    rw [hrd] at hrd1
    simp only [List.cons.injEq] at hrd1
    exact absurd (hrd1.1 ▸ hdz) hd0
  · intro hr0
    rw [hrd] at hr0
    simp at hr0

/-! ## Claims on addition -/

/-- Claim C18. For all objects `a` and `b` whose limbs are below 10, the window
that `a + b` returns denotes the sum of the numbers denoted by the windows of
`a` and `b`, also when the final carry lands in a limb that holds 9; and
`a + b` returns whenever a cell is free in front of each window and neither
window ends at the end of its arena. -/
theorem operatorPlus_value (a b : BigUint) (ha : LimbsInRange a) (hb : LimbsInRange b) :
    (∀ r, a.operatorPlus b = .ok r → value r.data = value a.data + value b.data) ∧
    (a.before ≠ [] → b.before ≠ [] → a.after ≠ [] → b.after ≠ [] →
      ∃ r, a.operatorPlus b = .ok r) := by
  refine ⟨fun r h => ?_, operatorPlus_returns a b⟩
  rcases operatorPlus_cases a b r h with ⟨-, hp⟩ | ⟨-, hp⟩
  · exact plusBody_value a b r ha hb hp
  · rw [plusBody_value b a r hb ha hp]; exact Nat.add_comm _ _

/-- Witness of C18 at the windows `[9, 9, 9]` and `[1]`, where the final carry
is added to a limb that holds 9. -/
theorem operatorPlus_value_witness :
    (LimbsInRange (BigUint.withLimbs [9, 9, 9]) ∧ LimbsInRange (BigUint.withLimbs [1])) ∧
      ((∀ r, (BigUint.withLimbs [9, 9, 9]).operatorPlus (BigUint.withLimbs [1]) = .ok r →
          value r.data = value (BigUint.withLimbs [9, 9, 9]).data
            + value (BigUint.withLimbs [1]).data) ∧
       ((BigUint.withLimbs [9, 9, 9]).before ≠ [] → (BigUint.withLimbs [1]).before ≠ [] →
          (BigUint.withLimbs [9, 9, 9]).after ≠ [] → (BigUint.withLimbs [1]).after ≠ [] →
          ∃ r, (BigUint.withLimbs [9, 9, 9]).operatorPlus (BigUint.withLimbs [1]) = .ok r)) :=
  ⟨⟨by unfold LimbsInRange; decide, by unfold LimbsInRange; decide⟩,
    operatorPlus_value (BigUint.withLimbs [9, 9, 9]) (BigUint.withLimbs [1])
      (by unfold LimbsInRange; decide) (by unfold LimbsInRange; decide)⟩

/-- Claim C12. For all objects `a` and `b` that satisfy I1, I2 and I3, a result
of `a + b` has a window that is not empty and has no leading zero limb, and it
is the single limb 0 only when both `a` and `b` are the single limb 0; and
`a + b` returns whenever a cell is free in front of each window and neither
window ends at the end of its arena. -/
theorem operatorPlus_canonical (a b : BigUint)
    (ha1 : WindowNonEmpty a) (hb1 : WindowNonEmpty b)
    (ha2 : LimbsInRange a) (hb2 : LimbsInRange b)
    (ha3 : NoLeadingZero a) (hb3 : NoLeadingZero b) :
    (∀ r, a.operatorPlus b = .ok r →
      WindowNonEmpty r ∧ NoLeadingZero r ∧ (r.data = [0] → a.data = [0] ∧ b.data = [0])) ∧
    (a.before ≠ [] → b.before ≠ [] → a.after ≠ [] → b.after ≠ [] →
      ∃ r, a.operatorPlus b = .ok r) := by
  refine ⟨fun r h => ?_, operatorPlus_returns a b⟩
  rcases operatorPlus_cases a b r h with ⟨hsz, hp⟩ | ⟨hsz, hp⟩
  · rcases Nat.lt_or_eq_of_le hsz with hlt | heq
    · exact plusBody_canonical_lt a b r hlt ha1 hb2 hb3 hp
    · exact plusBody_canonical_eq a b r heq ha1 ha2 hb2 ha3 hb3 hp
  · have key : WindowNonEmpty r ∧ NoLeadingZero r ∧
        (r.data = [0] → b.data = [0] ∧ a.data = [0]) := by
      rcases Nat.lt_or_eq_of_le hsz with hlt | heq
      · exact plusBody_canonical_lt b a r hlt hb1 ha2 ha3 hp
      · exact plusBody_canonical_eq b a r heq hb1 hb2 ha2 hb3 ha3 hp
    exact ⟨key.1, key.2.1, fun h0 => ⟨(key.2.2 h0).2, (key.2.2 h0).1⟩⟩

/-- Witness of C12 at the windows `[9, 9]` and `[1]`. -/
theorem operatorPlus_canonical_witness :
    (WindowNonEmpty (BigUint.withLimbs [9, 9]) ∧ WindowNonEmpty (BigUint.withLimbs [1]) ∧
      LimbsInRange (BigUint.withLimbs [9, 9]) ∧ LimbsInRange (BigUint.withLimbs [1]) ∧
      NoLeadingZero (BigUint.withLimbs [9, 9]) ∧ NoLeadingZero (BigUint.withLimbs [1])) ∧
      ((∀ r, (BigUint.withLimbs [9, 9]).operatorPlus (BigUint.withLimbs [1]) = .ok r →
          WindowNonEmpty r ∧ NoLeadingZero r ∧
            (r.data = [0] → (BigUint.withLimbs [9, 9]).data = [0]
              ∧ (BigUint.withLimbs [1]).data = [0])) ∧
       ((BigUint.withLimbs [9, 9]).before ≠ [] → (BigUint.withLimbs [1]).before ≠ [] →
          (BigUint.withLimbs [9, 9]).after ≠ [] → (BigUint.withLimbs [1]).after ≠ [] →
          ∃ r, (BigUint.withLimbs [9, 9]).operatorPlus (BigUint.withLimbs [1]) = .ok r)) :=
  ⟨⟨by unfold WindowNonEmpty; decide, by unfold WindowNonEmpty; decide,
      by unfold LimbsInRange; decide, by unfold LimbsInRange; decide,
      (by intro d rest h hd; cases h; cases hd),
      (by intro d rest h hd; cases h; rfl)⟩,
    operatorPlus_canonical (BigUint.withLimbs [9, 9]) (BigUint.withLimbs [1])
      (by unfold WindowNonEmpty; decide) (by unfold WindowNonEmpty; decide)
      (by unfold LimbsInRange; decide) (by unfold LimbsInRange; decide)
      (by intro d rest h hd; cases h; cases hd)
      (by intro d rest h hd; cases h; rfl)⟩

/-- `a < BigUint("0")` is false for every object `a` with a window that is not
empty, provided the window does not end at the end of the arena when `a` is the
single limb 0. -/
theorem operatorLess_zero (a : BigUint) (h1 : WindowNonEmpty a)
    (hend : a.data = [0] → a.after ≠ []) : a.operatorLess BigUint.fresh = .ok false := by
  have hfd : BigUint.fresh.data = [0] := rfl
  have hfa : BigUint.fresh.after = 0 :: List.replicate 498 0 := List.replicate_succ 0 498
  have hfs : BigUint.fresh.Size = 1 := rfl
  have hpos : 0 < a.data.length := List.length_pos.mpr h1
  by_cases hs : a.Size = BigUint.fresh.Size
  · by_cases hd : a.data = BigUint.fresh.data
    · rw [hfd] at hd
      obtain ⟨x, xs, hx⟩ := List.exists_cons_of_ne_nil (hend hd)
      generalize List.replicate 498 0 = tl at hfa
      simp [BigUint.operatorLess, hs, ComparisonProxy.operatorLess, BigUint.proxy, hd, hfd, hfa,
        hx, ComparisonProxy.ltLoop]
    · exact operatorLess_same_size_differ a BigUint.fresh hs hd
  · have hlt : ¬ a.Size < BigUint.fresh.Size := by
      rw [hfs] at hs ⊢; unfold BigUint.Size at hs ⊢; omega
    simp [BigUint.operatorLess, hs, hlt]

/-- The body of `operator+` with the single limb 0 as `smaller`: the limbs of
`bigger` are returned as they are. -/
theorem plusBody_zero (bg : BigUint) (h1 : WindowNonEmpty bg) (h2 : LimbsInRange bg) :
    plusBody BigUint.fresh bg = .ok { bg.copy with data := bg.data } := by
  have hfd : BigUint.fresh.data = [0] := rfl
  have hrev : bg.data.reverse ≠ [] := by simpa using h1
  obtain ⟨r0, rs, hr⟩ := List.exists_cons_of_ne_nil hrev
  have hr0 : r0 < 10 := h2 r0 (by
    have : r0 ∈ bg.data.reverse := by rw [hr]; exact List.mem_cons_self _ _
    simpa using this)
  have hv : wadd r0 (wadd 0 (ofBool false)) = r0 := by
    rw [wadd3_of_lt r0 0 false hr0 (by norm_num)]; simp [ofBool]
  have hnot : ¬ r0 ≥ BIGDIGIT_BASE := by unfold BIGDIGIT_BASE; omega
  have hdata : rs.reverse ++ [r0] = bg.data := by
    have := congrArg List.reverse hr
    simpa using this.symm
  simp only [plusBody, BigUint.copy, hfd, List.reverse_cons, List.reverse_nil, List.nil_append,
    hr, plusLoop, hv, hnot, if_false, Bool.false_eq_true, hdata]


/-- Claim C15. For every object `a` whose window is not empty and whose limbs
are below 10, `a + BigUint("0")` returns an object with the limbs of `a`, and
`operator==` holds between it and `a`. (When `a` is itself the single limb 0 its
window must not be the last cell of its arena, which no window built by the
code is.) -/
theorem operatorPlus_zero_identity (a : BigUint) (h1 : WindowNonEmpty a) (h2 : LimbsInRange a)
    (hend : a.data = [0] → a.after ≠ []) :
    ∃ z r, BigUint.ofString "0" = .ok z ∧ a.operatorPlus z = .ok r ∧ r.data = a.data ∧
      r.operatorEq a = .ok true := by
  refine ⟨BigUint.fresh, { a.copy with data := a.data }, rfl, ?_, rfl,
    operatorEq_of_data_eq _ _ rfl⟩
  simp only [BigUint.operatorPlus, OrderedRefs, operatorLess_zero a h1 hend, Ref.get,
    plusBody_zero a h1 h2]

/-- Witness of C15 at the window `[4, 2]`. -/
theorem operatorPlus_zero_identity_witness :
    (WindowNonEmpty (BigUint.withLimbs [4, 2]) ∧ LimbsInRange (BigUint.withLimbs [4, 2]) ∧
      ((BigUint.withLimbs [4, 2]).data = [0] → (BigUint.withLimbs [4, 2]).after ≠ [])) ∧
      ∃ z r, BigUint.ofString "0" = .ok z ∧ (BigUint.withLimbs [4, 2]).operatorPlus z = .ok r ∧
        r.data = (BigUint.withLimbs [4, 2]).data ∧
        r.operatorEq (BigUint.withLimbs [4, 2]) = .ok true :=
  ⟨⟨by unfold WindowNonEmpty; decide, by unfold LimbsInRange; decide, by decide⟩,
    operatorPlus_zero_identity (BigUint.withLimbs [4, 2]) (by unfold WindowNonEmpty; decide)
      (by unfold LimbsInRange; decide) (by decide)⟩

/-! ## Lemmas on the size of the window in subtraction -/

theorem carryLoop_length : ∀ (cells : List Nat) (inc : Nat) (cells1 : List Nat),
    carryLoop inc cells = .ok cells1 → cells1.length = cells.length
  | [], _, _, h => by simp [carryLoop] at h
  | c :: cells, inc, cells1, h => by
      simp only [carryLoop] at h
      split at h
      · cases hc : carryLoop 1 cells with
        | error e => simp [hc] at h
        | ok cells2 =>
            simp only [hc, Except.ok.injEq] at h
            rw [← h, List.length_cons, List.length_cons, carryLoop_length cells 1 cells2 hc]
      · simp only [Except.ok.injEq] at h
        rw [← h]; simp

/-- `CarryOverflow` keeps the sizes of the span and of the window. -/
theorem CarryOverflow_lengths (c c1 : Cursor) (h : CarryOverflow c = .ok c1) :
    c1.view.length = c.view.length ∧ c1.done.length = c.done.length := by
  unfold CarryOverflow at h
  cases hc : carryLoop 0 (c.done.reverse ++ c.view ++ c.before) with
  | error e => rw [hc] at h; cases h
  | ok cells =>
      have hl := carryLoop_length _ _ _ hc
      simp only [List.length_append, List.length_reverse] at hl
      simp only [hc, Except.ok.injEq] at h
      rw [← h]
      simp only [List.length_take, List.length_drop, List.length_reverse]
      omega

theorem FindNonZeroToLeft_lt : ∀ (l : List Nat) (k : Nat),
    FindNonZeroToLeft l = some k → k < l.length
  | [], _, h => by simp [FindNonZeroToLeft] at h
  | c :: l, k, h => by
      simp only [FindNonZeroToLeft] at h
      split at h
      · simp only [Option.some.injEq] at h
        rw [← h]; simp
      · cases hf : FindNonZeroToLeft l with
        | none => simp [hf] at h
        | some j =>
            simp only [hf, Option.map_some', Option.some.injEq] at h
            have := FindNonZeroToLeft_lt l j hf
            rw [← h]; simp; omega

/-- `LoanOne` keeps the sizes of the span and of the window. -/
theorem LoanOne_lengths (c c1 : Cursor) (h : LoanOne c = .ok c1) :
    c1.view.length = c.view.length ∧ c1.done.length = c.done.length := by
  unfold LoanOne at h
  cases hv : c.view with
  | nil => simp [hv] at h
  | cons cur left =>
      simp only [hv] at h
      cases hf : FindNonZeroToLeft left with
      | none => simp [hf] at h
      | some k =>
          have hk := FindNonZeroToLeft_lt left k hf
          simp only [hf] at h
          cases hd : left.drop k with
          | nil => simp [hd] at h
          | cons found more =>
              simp only [hd, Except.ok.injEq] at h
              have hlen : left.length = k + (more.length + 1) := by
                have h1 := congrArg List.length hd
                simp only [List.length_drop, List.length_cons] at h1
                omega
              rw [← h]
              simp only [List.length_cons, List.length_append, List.length_map,
                List.length_take]
              exact ⟨by omega, trivial⟩

/-- The loop of `operator-` keeps the size of the window of `result`. -/
theorem minusLoop_window_length (tb : Bool) : ∀ (n : Nat) (res small res1 small1 : Cursor),
    minusLoop tb n res small = .ok (res1, small1) →
    res1.view.length + res1.done.length = res.view.length + res.done.length
  | 0, res, small, res1, small1, h => by
      simp only [minusLoop, Except.ok.injEq, Prod.mk.injEq] at h
      rw [← h.1]
  | n + 1, res, small, res1, small1, h => by
      unfold minusLoop at h
      cases hrv : res.view with
      | nil => simp [hrv] at h
      | cons r rleft =>
        cases hsv : small.view with
        | nil => simp [hrv, hsv] at h
        | cons s sleft =>
          simp only [hrv, hsv] at h
          cases hloan : (if r < s then LoanOne res else Except.ok res) with
          | error e => simp [hloan] at h
          | ok loaned =>
            have hll : loaned.view.length = res.view.length ∧
                loaned.done.length = res.done.length := by
              by_cases hlt : r < s
              · simp only [hlt, if_true] at hloan
                exact LoanOne_lengths res loaned hloan
              · simp only [hlt, if_false, Except.ok.injEq] at hloan
                rw [← hloan]; exact ⟨rfl, rfl⟩
            simp only [hloan] at h
            cases hlv : loaned.view with
            | nil => simp [hlv] at h
            | cons r1 left =>
              simp only [hlv] at h
              cases hc1 : (if tb = true then
                  CarryOverflow { loaned with view := wsub r1 s :: left }
                  else Except.ok { loaned with view := wsub r1 s :: left }) with
              | error e => simp [hc1] at h
              | ok res2 =>
                have hl2 : res2.view.length = loaned.view.length ∧
                    res2.done.length = loaned.done.length := by
                  cases tb
                  · simp only [Bool.false_eq_true, if_false, Except.ok.injEq] at hc1
                    rw [← hc1]; simp [hlv]
                  · simp only [if_true] at hc1
                    have := CarryOverflow_lengths _ res2 hc1
                    simpa [hlv] using this
                cases hc2 : (if tb = true then Except.ok small else CarryOverflow small) with
                | error e => simp [hc1, hc2] at h
                | ok small2 =>
                  simp only [hc1, hc2] at h
                  cases hs1 : res2.ShrinkSpan with
                  | error e => simp [hs1] at h
                  | ok res3 =>
                    cases hs2 : small2.ShrinkSpan with
                    | error e => simp [hs1, hs2] at h
                    | ok small3 =>
                      simp only [hs1, hs2] at h
                      have ih := minusLoop_window_length tb n res3 small3 res1 small1 h
                      have hsh : res3.view.length + res3.done.length
                          = res2.view.length + res2.done.length := by
                        unfold Cursor.ShrinkSpan at hs1
                        cases hv2 : res2.view with
                        | nil => simp [hv2] at hs1
                        | cons x v =>
                            simp only [hv2, Except.ok.injEq] at hs1
                            rw [← hs1]; simp; omega
                      have hrl : res.view.length = (r :: rleft).length := by rw [hrv]
                      omega


/-- The body of `operator-` returns a window of the size of `bigger`. -/
theorem minusBody_size (tb : Bool) (sm bg r : BigUint) (h : minusBody tb sm bg = .ok r) :
    r.Size = bg.Size := by
  simp only [minusBody] at h
  cases hl : minusLoop tb sm.Size bg.copy.cursor sm.cursor with
  | error e => rw [hl] at h; cases h
  | ok p =>
      obtain ⟨res1, small1⟩ := p
      have hw := minusLoop_window_length tb _ _ _ _ _ hl
      rw [hl] at h
      simp only [Except.ok.injEq] at h
      rw [← h]
      simp only [BigUint.Size, Cursor.window, List.length_append, List.length_reverse]
      simpa [BigUint.cursor, BigUint.copy] using hw

/-- `operator-` is the body of the operator on the two operands in the order
that `OrderedRefs` gives them, the first one being not longer than the second. -/
theorem operatorMinus_cases (a b r : BigUint) (h : a.operatorMinus b = .ok r) :
    (a.Size ≤ b.Size ∧ minusBody false a b = .ok r) ∨
      (b.Size ≤ a.Size ∧ minusBody true b a = .ok r) := by
  unfold BigUint.operatorMinus OrderedRefs at h
  cases hl : a.operatorLess b with
  | error e => simp [hl] at h
  | ok v =>
      have hsz := operatorLess_sizes a b v hl
      cases v with
      | true => exact Or.inl ⟨hsz.1 rfl, by simpa [hl, Ref.get] using h⟩
      | false => exact Or.inr ⟨hsz.2 rfl, by simpa [hl, Ref.get] using h⟩

/-- Claim C13, as amended. Whenever `a - b` returns, the window of the result
has exactly as many limbs as the longer of the two operands: no limb is removed
from the window, whatever the limbs hold. -/
theorem operatorMinus_size (a b r : BigUint) (h : a.operatorMinus b = .ok r) :
    r.Size = max a.Size b.Size := by
  rcases operatorMinus_cases a b r h with ⟨hsz, hm⟩ | ⟨hsz, hm⟩
  · rw [minusBody_size false a b r hm]; omega
  · rw [minusBody_size true b a r hm]; omega

/-- Witness of C13 at the windows `[2, 1]` and `[1, 9]`: the result is the window
`[0, 2]`. -/
theorem operatorMinus_size_witness :
    (BigUint.withLimbs [2, 1]).operatorMinus (BigUint.withLimbs [1, 9])
        = .ok { (BigUint.withLimbs [2, 1]).copy with data := [0, 2] } ∧
      ({ (BigUint.withLimbs [2, 1]).copy with data := [0, 2] } : BigUint).Size
        = max (BigUint.withLimbs [2, 1]).Size (BigUint.withLimbs [1, 9]).Size :=
  ⟨rfl,
    operatorMinus_size (BigUint.withLimbs [2, 1]) (BigUint.withLimbs [1, 9])
      { (BigUint.withLimbs [2, 1]).copy with data := [0, 2] } rfl⟩

/-- Counterexample to C13 as stated. `BigUint("21") - BigUint("19")` has the
limbs `[0, 2]`: the most significant limb is zero and the window holds two
limbs. -/
theorem difference_21_19_leading_zero : differenceLimbs "21" "19" = .ok [0, 2] := by
  decide

/-! ## Lemmas on the constructor: the first zero and leading zeros -/

/-- The constructor loop throws at a `'0'` when the arena has a free cell for
every character in front of it. -/
theorem ctorLoop_zero_at : ∀ (pre rest : List Char) (x : BigUint), x.data ≠ [] →
    pre.length ≤ x.after.length → ctorLoop (pre ++ '0' :: rest) x = .error .assertion
  | [], rest, x, _, _ => by simp [ctorLoop, ExtractDigit]
  | c :: pre, rest, x, hd, hlen => by
      by_cases hc : c = '0'
      · simp [ctorLoop, ExtractDigit, hc]
      · have ha : x.after ≠ [] := by
          intro h; rw [h] at hlen; simp at hlen
        obtain ⟨x2, e, hd2, hl2⟩ := ctorLoop_cons c (pre ++ '0' :: rest) x hc hd ha
        rw [List.cons_append, e]
        refine ctorLoop_zero_at pre rest x2 hd2 ?_
        simp only [List.length_cons] at hlen; omega

/-- The constructor loop on characters in `'1'..'9'` followed by any characters,
once the last limb holds a nonzero value, when the characters in `'1'..'9'`
outnumber the free cells behind the window of an object that owns its arena:
`ExtendNumberRight` ends in `ReallocateStorage` before the other characters
are looked at. -/
theorem ctorLoop_digits_abort_append : ∀ (cs rest : List Char) (x : BigUint) (pre : List Nat)
    (d : Nat), (∀ c ∈ cs, isNonzeroDigit c = true) → x.data = pre ++ [d] → 1 ≤ d → d ≤ 1000 →
    (∀ z ∈ x.after, z = 0) → x.owns = true → x.after.length < cs.length →
    ctorLoop (cs ++ rest) x = .error .aborted
  | [], _, x, pre, d, _, _, _, _, _, _, hlen => by simp at hlen
  | c :: cs, rest, x, pre, d, hcs, hx, hd1, hd9, hz, hown, hlen => by
      have hc : isNonzeroDigit c = true := hcs c (List.mem_cons_self _ _)
      obtain ⟨g1, g9⟩ := nonzeroDigit_bounds c hc
      have hov : wadd (wmul d DECIMAL_BASE) (c.toNat - 48) > BIGDIGIT_BASE := by
        rw [wmul_of_lt _ _ (by unfold DECIMAL_BASE U64; omega),
          wadd_of_lt _ _ (by unfold DECIMAL_BASE U64; omega)]
        unfold DECIMAL_BASE BIGDIGIT_BASE; omega
      cases hafter : x.after with
      | nil =>
          rw [List.cons_append]
          simp only [ctorLoop, ExtractDigit, ne_zero_of_nonzeroDigit c hc,
            if_false, CreatesOverflow, back_of_data x pre d hx, digit_of_nonzeroDigit c hc, hov,
            decide_True, if_true, ExtendNumberRight, hafter, hown, ReallocateStorage]
      | cons a0 rest0 =>
          have ha0 : a0 = 0 := hz a0 (by rw [hafter]; exact List.mem_cons_self _ _)
          subst ha0
          have hpush : wadd (wmul 0 10) (c.toNat - 48) = c.toNat - 48 := by
            rw [wmul_of_lt _ _ (by unfold U64; omega), wadd_of_lt _ _ (by unfold U64; omega)]
            omega
          have hx1 : ({ x with data := x.data ++ [0], after := rest0 } : BigUint).data
              = (pre ++ [d]) ++ [0] := by simp [hx]
          have ih := ctorLoop_digits_abort_append cs rest
            { x with data := (pre ++ [d]) ++ [c.toNat - 48], after := rest0 } (pre ++ [d])
            (c.toNat - 48) (fun c1 h1 => hcs c1 (List.mem_cons_of_mem _ h1)) rfl g1 (by omega)
            (fun z hzr => hz z (by rw [hafter]; exact List.mem_cons_of_mem _ hzr)) hown
            (by rw [hafter] at hlen; simpa using hlen)
          rw [← ih, List.cons_append]
          simp only [ctorLoop, ExtractDigit, ne_zero_of_nonzeroDigit c hc,
            if_false, CreatesOverflow, back_of_data x pre d hx, digit_of_nonzeroDigit c hc, hov,
            decide_True, if_true, ExtendNumberRight, hafter, PushBackDigit,
            back_of_data _ _ _ hx1, setBack_of_data _ _ _ _ hx1, hpush]

/-- A string of 501 characters `'1'` followed by a `'0'` makes the constructor
abort. -/
theorem ctor_aborts_before_late_zero :
    BigUint.ofString (String.mk (List.replicate 501 '1' ++ ['0'])) = .error .aborted := by
  have hlen : (List.replicate 499 (0 : Nat)).length < (List.replicate 500 '1').length := by
    rw [List.length_replicate, List.length_replicate]; omega
  have h := ctorLoop_digits_abort_append (List.replicate 500 '1') ['0']
    { BigUint.fresh with data := [] ++ [1] } [] 1 (all_ones_nonzeroDigit 500) rfl
    (by omega) (by omega) (fun z hz => List.eq_of_mem_replicate hz) rfl hlen
  have hrep : List.replicate 501 '1' = '1' :: List.replicate 500 '1' :=
    List.replicate_succ '1' 500
  have hone : isNonzeroDigit '1' = true := rfl
  rw [← h]
  simp only [BigUint.ofString, hrep, List.cons_append,
    SkipZeroes_of_nonzeroDigit '1' _ (ne_zero_of_nonzeroDigit '1' hone)]
  exact ctorLoop_first_digit '1' _ hone

/-- Claim C19, as amended. For every string in which, after the leading zeros,
a character `'0'` stands among the first 500 characters, the constructor throws
the assertion failure of `ExtractDigit`. -/
theorem ctor_throws_at_early_zero (s : String) (pre rest : List Char)
    (h : SkipZeroes s.data = pre ++ '0' :: rest) (hpre : pre.length ≤ 499) :
    BigUint.ofString s = .error .assertion := by
  have h499 : BigUint.fresh.after.length = 499 := List.length_replicate 499 0
  unfold BigUint.ofString
  rw [h]
  exact ctorLoop_zero_at pre rest BigUint.fresh (List.cons_ne_nil 0 []) (by omega)

/-- Witness of C19 at the string "1000". -/
theorem ctor_throws_at_early_zero_witness :
    (SkipZeroes ("1000" : String).data = ['1'] ++ '0' :: ['0', '0'] ∧ ['1'].length ≤ 499) ∧
      BigUint.ofString "1000" = .error .assertion :=
  ⟨⟨by decide, by decide⟩,
    ctor_throws_at_early_zero "1000" ['1'] ['0', '0'] (by decide) (by decide)⟩

/-- Counterexample to C19 as stated. In the string of 501 characters `'1'`
followed by `'0'` a `'0'` remains after the leading zeros, and the constructor
aborts instead of throwing. -/
theorem ctor_aborts_on_501_digits_and_zero :
    '0' ∈ SkipZeroes (String.mk (List.replicate 501 '1' ++ ['0'])).data ∧
      BigUint.ofString (String.mk (List.replicate 501 '1' ++ ['0'])) = .error .aborted := by
  refine ⟨?_, ctor_aborts_before_late_zero⟩
  have hrep : List.replicate 501 '1' = '1' :: List.replicate 500 '1' :=
    List.replicate_succ '1' 500
  have hne : ('1' : Char) ≠ '0' := by decide
  show '0' ∈ SkipZeroes (List.replicate 501 '1' ++ ['0'])
  rw [hrep, List.cons_append, SkipZeroes_of_nonzeroDigit '1' _ hne]
  exact List.mem_cons_of_mem _ (List.mem_append_right _ (List.mem_singleton_self _))

theorem SkipZeroes_replicate (k : Nat) (t : List Char) :
    SkipZeroes (List.replicate k '0' ++ t) = SkipZeroes t := by
  induction k with
  | zero => rfl
  | succ k ih => rw [List.replicate_succ, List.cons_append]; simp only [SkipZeroes, if_true, ih]

/-- The constructor loop on a string of at most 500 characters in `'1'..'9'`,
from the state set by the member initialisers: one limb per character. -/
theorem ctorLoop_fresh_digits (c : Char) (cs : List Char)
    (h : ∀ c1 ∈ c :: cs, isNonzeroDigit c1 = true) (hlen : (c :: cs).length ≤ 500) :
    ∃ r, ctorLoop (c :: cs) BigUint.fresh = .ok r ∧
      r.data = (c :: cs).map (fun c1 => c1.toNat - 48) := by
  have hc : isNonzeroDigit c = true := h c (List.mem_cons_self _ _)
  obtain ⟨g1, g9⟩ := nonzeroDigit_bounds c hc
  have h499 : BigUint.fresh.after.length = 499 := List.length_replicate 499 0
  obtain ⟨r, hr, hrd⟩ := ctorLoop_digits cs
    { BigUint.fresh with data := [] ++ [c.toNat - 48] } [] (c.toNat - 48)
    (fun c1 h1 => h c1 (List.mem_cons_of_mem _ h1)) rfl g1 g9
    (fun z hz => List.eq_of_mem_replicate hz)
    (by
      simp only [List.length_cons] at hlen
      show cs.length ≤ BigUint.fresh.after.length
      omega)
  exact ⟨r, by rw [ctorLoop_first_digit c cs hc]; exact hr, by rw [hrd]; rfl⟩

theorem digits_in_range (t : List Char) (ht : ∀ c ∈ t, isNonzeroDigit c = true) :
    ∀ d ∈ t.map (fun c => c.toNat - 48), d < BIGDIGIT_BASE := by
  intro d hd
  obtain ⟨c, hc, rfl⟩ := List.mem_map.mp hd
  have := (nonzeroDigit_bounds c (ht c hc)).2
  unfold BIGDIGIT_BASE; omega

/-- Claim C20. For every string made of any number of characters `'0'` followed
by a string `t` of at most 500 characters in `'1'..'9'`, the constructor returns
an object with one limb per character of `t`, holding its digit (the single
limb 0 when `t` is empty); every limb is below 10 and the output operator
prints `t`, or "0" when `t` is empty. -/
theorem ctor_strips_leading_zeros (k : Nat) (t : List Char)
    (ht : ∀ c ∈ t, isNonzeroDigit c = true) (hlen : t.length ≤ 500) :
    ∃ x, BigUint.ofString (String.mk (List.replicate k '0' ++ t)) = .ok x ∧
      x.data = (if t = [] then [0] else t.map (fun c => c.toNat - 48)) ∧
      x.Size = (if t = [] then 1 else t.length) ∧
      LimbsInRange x ∧
      operatorOut x = (if t = [] then "0" else String.mk t) := by
  cases t with
  | nil =>
      refine ⟨BigUint.fresh, ?_, rfl, rfl, ?_, rfl⟩
      · simp only [BigUint.ofString, SkipZeroes_replicate, SkipZeroes, ctorLoop]
      · intro d hd
        have hfd : BigUint.fresh.data = [0] := rfl
        rw [hfd] at hd
        rw [List.mem_singleton.mp hd]; decide
  | cons c cs =>
      have hc : isNonzeroDigit c = true := ht c (List.mem_cons_self _ _)
      obtain ⟨r, hr, hrd⟩ := ctorLoop_fresh_digits c cs ht hlen
      have hne : (c :: cs) ≠ [] := List.cons_ne_nil _ _
      refine ⟨r, ?_, ?_, ?_, ?_, ?_⟩
      · simp only [BigUint.ofString, SkipZeroes_replicate,
          SkipZeroes_of_nonzeroDigit c cs (ne_zero_of_nonzeroDigit c hc)]
        exact hr
      · rw [if_neg hne]; exact hrd
      · rw [if_neg hne]; unfold BigUint.Size; rw [hrd]; simp
      · unfold LimbsInRange; rw [hrd]; exact digits_in_range (c :: cs) ht
      · rw [if_neg hne]; unfold operatorOut; rw [hrd, printLimbs_digits (c :: cs) ht]

/-- Witness of C20 at the string "007". -/
theorem ctor_strips_leading_zeros_witness :
    ((∀ c ∈ ['7'], isNonzeroDigit c = true) ∧ ['7'].length ≤ 500) ∧
      ∃ x, BigUint.ofString (String.mk (List.replicate 2 '0' ++ ['7'])) = .ok x ∧
        x.data = (if ['7'] = [] then [0] else ['7'].map (fun c => c.toNat - 48)) ∧
        x.Size = (if ['7'] = [] then 1 else ['7'].length) ∧
        LimbsInRange x ∧
        operatorOut x = (if ['7'] = [] then "0" else String.mk ['7']) :=
  ⟨⟨by decide, by decide⟩, ctor_strips_leading_zeros 2 ['7'] (by decide) (by decide)⟩

/-! ## Claims at given inputs -/

/-- Claim C11 at its failing input. The operands built from "999" and "1" have
all their limbs below 10, and their sum has the limbs `[9, 10, 0]`: the final
`span_res.back() += 1` turns the limb that holds 9 into 10. -/
theorem sum_999_1_has_limb_10 :
    ((BigUint.ofString "999").bind fun a => (BigUint.ofString "1").bind fun b =>
      (a.operatorPlus b).map fun r => (a.data, b.data, r.data))
      = .ok ([9, 9, 9], [1], [9, 10, 0]) := by
  decide

set_option maxRecDepth 20000 in
/-- Claim C14 at its failing input. With `a` built from "5" and `b` from "7",
`OrderedRefs` gives `a` as `bigger`; `a + b` returns the limbs `[1, 2]`, and the
window of `a`, which held `[5]`, holds `[2]` after the call. Likewise for `a`
built from "5" and `b` from "3": `a - b` returns `[2]` and the window of `a`
holds `[2]` after the call. -/
theorem sum_writes_into_bigger_operand :
    ((BigUint.ofString "5").bind fun a => (BigUint.ofString "7").bind fun b =>
      (OrderedRefs a b).bind fun refs => (a.operatorPlus b).map fun r =>
        (refs, a.data, windowAfter a r, r.data))
      = .ok ((Ref.other, Ref.self), [5], [2], [1, 2]) ∧
    ((BigUint.ofString "5").bind fun a => (BigUint.ofString "3").bind fun b =>
      (OrderedRefs a b).bind fun refs => (a.operatorMinus b).map fun r =>
        (refs, a.data, windowAfter a r, r.data))
      = .ok ((Ref.other, Ref.self), [5], [2], [2]) := by
  decide

/-- Claim C16 at its failing input. With `a` built from "3" and `b` from "5",
`OrderedRefs` gives `a` as `bigger`; the limb 3 of `result` is smaller than the
limb 5 of `smaller`, no limb stands to the left of it, `FindNonZeroToLeft`
returns `nullptr` and `LoanOne` dereferences it. -/
theorem borrow_3_5_finds_no_limb :
    ((BigUint.ofString "3").bind fun a => (BigUint.ofString "5").bind fun b =>
      (OrderedRefs a b).map fun refs =>
        (refs, a.copy.cursor.view, b.cursor.view, FindNonZeroToLeft a.copy.cursor.view.tail))
      = .ok ((Ref.other, Ref.self), [3], [5], none) ∧
    ((BigUint.ofString "3").bind fun a => LoanOne a.copy.cursor) = .error .nullDeref := by
  decide

/-- `LoanOne` adds `BIGDIGIT_BASE` to every limb that `ShrinkSpan` has already
dropped from `span_res`. -/
theorem LoanOne_done (c c1 : Cursor) (h : LoanOne c = .ok c1) :
    c1.done = c.done.map (fun z => wadd z BIGDIGIT_BASE) ∧ c1.before = c.before := by
  unfold LoanOne at h
  cases hv : c.view with
  | nil => simp [hv] at h
  | cons cur left =>
      simp only [hv] at h
      cases hf : FindNonZeroToLeft left with
      | none => simp [hf] at h
      | some k =>
          simp only [hf] at h
          cases hd : left.drop k with
          | nil => simp [hd] at h
          | cons found more =>
              simp only [hd, Except.ok.injEq] at h
              rw [← h]
              exact ⟨rfl, rfl⟩

/-- Claim C17 at its failing input. In `BigUint("211") - BigUint("199")` the
first round of the loop leaves the window `[2, 0, 2]` with the span on its
first two limbs. The second round calls `LoanOne` for the limb at position 1;
the nearest nonzero limb to the left is at position 0. `LoanOne` leaves the
window `[1, 10, 12]`: the limb at position 2, less significant than the
current one and already processed, has changed from 2 to 12. -/
theorem loan_changes_processed_limb :
    (minusLoop true 1 (BigUint.withLimbs [2, 1, 1]).copy.cursor
        (BigUint.withLimbs [1, 9, 9]).cursor).map (fun p => (p.1.view, p.1.done))
      = .ok ([0, 2], [2]) ∧
    (LoanOne { view := [0, 2], done := [2], before := [] }).map Cursor.window
      = .ok [1, 10, 12] := by
  decide

end BigArithmetic
